import Mathlib

/-!
Shallow embedding of the single-instrument limit order book implemented in
`order_book.cpp` / `order_book.h` of the HFT capstone repository.

Modelling choices, each mirroring the C++ source:
* `price` (C++ `double`, used only through `<`, `>`, `==` as an ordered map
  key) is modelled as `Int`; `quantity` and the counters (C++ `uint64_t`)
  as `Nat` (no operation of the source underflows or overflows under the
  invariants proved below, so wrap-around is never exercised).
* `std::map<double, PriceLevelData, greater>` (bids) and
  `std::map<double, PriceLevelData, less>` (asks) are modelled as lists of
  levels kept in comparator order; `find`/`emplace` becomes a sorted-insert
  walk, `begin()` is the list head.
* `std::list<Order*>` inside a level is a `List Order` (head = front,
  `push_back` = append at tail); the memory pool is identity-irrelevant and
  is not modelled.
* `std::unordered_map<uint64_t, OrderLocation>` is an association list with
  insert-or-assign and erase-by-key; nothing in the source iterates it, so
  entry order is unobservable.
* The `while` crossing loop of `match_orders` runs with explicit fuel equal
  to the number of resting orders; `matchLoop_exhausts` below proves that
  this fuel always reaches the loop's own break condition, so the fueled
  function computes exactly the C++ loop.
* Trade emission (`execute_trade`, which prints and bumps
  `total_orders_matched_`) is modelled by returning the list of emitted
  `Trade` events; the reported price is `sell_order->price` exactly as in
  the source.
* Locations found through the locator always point at live orders in every
  reachable state; where the C++ would dereference a dangling
  pointer/iterator on an inconsistent state (impossible in reachable
  states), the model leaves the book unchanged.
-/

structure Order where
  order_id : Nat
  is_buy : Bool
  price : Int
  quantity : Nat
  timestamp_ns : Nat
deriving DecidableEq, Repr

structure PriceLevelData where
  price : Int
  orders : List Order
  total_quantity : Nat
deriving DecidableEq, Repr

structure OrderLocation where
  is_bid : Bool
  price : Int
deriving DecidableEq, Repr

structure Trade where
  buy_order_id : Nat
  sell_order_id : Nat
  quantity : Nat
  price : Int
deriving DecidableEq, Repr

structure Book where
  bids : List PriceLevelData
  asks : List PriceLevelData
  order_lookup : List (Nat × OrderLocation)
  total_orders_added : Nat
  total_orders_cancelled : Nat
  total_orders_matched : Nat
deriving DecidableEq, Repr

def emptyBook : Book :=
  { bids := [], asks := [], order_lookup := [],
    total_orders_added := 0, total_orders_cancelled := 0, total_orders_matched := 0 }

/-- `order_lookup_.find(id)`. -/
def lookupFind (id : Nat) : List (Nat × OrderLocation) → Option OrderLocation
  | [] => none
  | e :: es => if e.1 = id then some e.2 else lookupFind id es

/-- `order_lookup_.erase(id)` (keys are unique in every reachable state). -/
def eraseKey (id : Nat) : List (Nat × OrderLocation) → List (Nat × OrderLocation)
  | [] => []
  | e :: es => if e.1 = id then es else e :: eraseKey id es

/-- `order_lookup_[id] = loc` (insert-or-assign of `std::unordered_map`). -/
def lookupInsert (id : Nat) (loc : OrderLocation) (l : List (Nat × OrderLocation)) :
    List (Nat × OrderLocation) :=
  (id, loc) :: eraseKey id l

/-- Sum of remaining quantities of a queue (the value `total_quantity` tracks). -/
def sumQ : List Order → Nat
  | [] => 0
  | o :: os => o.quantity + sumQ os

/-- All resting orders of one side, in book order (level index order, FIFO inside). -/
def sideOrders : List PriceLevelData → List Order
  | [] => []
  | l :: ls => l.orders ++ sideOrders ls

/-- Number of resting orders on one side. -/
def numSide : List PriceLevelData → Nat
  | [] => 0
  | l :: ls => l.orders.length + numSide ls

/-- Number of resting orders in the whole book. -/
def numOrders (b : Book) : Nat :=
  numSide b.bids + numSide b.asks

/-- `bids_.find(price)` / `emplace` / `push_back` / `total_quantity +=` of
`add_order`, for the descending bid map: walk to the price's sorted position,
append to an existing level or create a fresh one. -/
def insertBid (o : Order) : List PriceLevelData → List PriceLevelData
  | [] => [{ price := o.price, orders := [o], total_quantity := o.quantity }]
  | l :: ls =>
    if o.price > l.price then
      { price := o.price, orders := [o], total_quantity := o.quantity } :: l :: ls
    else if o.price = l.price then
      { l with orders := l.orders ++ [o], total_quantity := l.total_quantity + o.quantity } :: ls
    else
      l :: insertBid o ls

/-- Same as `insertBid` for the ascending ask map. -/
def insertAsk (o : Order) : List PriceLevelData → List PriceLevelData
  | [] => [{ price := o.price, orders := [o], total_quantity := o.quantity }]
  | l :: ls =>
    if o.price < l.price then
      { price := o.price, orders := [o], total_quantity := o.quantity } :: l :: ls
    else if o.price = l.price then
      { l with orders := l.orders ++ [o], total_quantity := l.total_quantity + o.quantity } :: ls
    else
      l :: insertAsk o ls

/-- One side's update inside one iteration of the crossing loop: the head
order `hd` of the best level `lvl` traded `qty`; decrement the level total,
then pop `hd` if fully filled and erase the level if its queue emptied
(identical code for the bid and the ask side in `match_orders`). -/
def stepSide (lvl : PriceLevelData) (rest : List PriceLevelData) (hd : Order)
    (tl : List Order) (qty : Nat) : List PriceLevelData :=
  if hd.quantity - qty = 0 then
    if tl = [] then rest
    else { lvl with orders := tl, total_quantity := lvl.total_quantity - qty } :: rest
  else
    { lvl with orders := { hd with quantity := hd.quantity - qty } :: tl,
               total_quantity := lvl.total_quantity - qty } :: rest

/-- `order_lookup_.erase(hd->order_id)` when the head was fully filled. -/
def stepLookup (hd : Order) (qty : Nat) (lk : List (Nat × OrderLocation)) :
    List (Nat × OrderLocation) :=
  if hd.quantity - qty = 0 then eraseKey hd.order_id lk else lk

/-- One iteration of the `while` loop of `OrderBook::match_orders`: `none`
when the loop breaks (a side empty, best bid < best ask, or a defensive
empty-queue check), otherwise the updated book and the emitted trade.
The trade's reported price is `sell_order->price`, as hardcoded in
`execute_trade`. -/
def matchStep (b : Book) : Option (Book × Trade) :=
  match b.bids, b.asks with
  | bl :: brest, al :: arest =>
    if bl.price < al.price then none
    else
      match bl.orders, al.orders with
      | buy :: btail, sell :: stail =>
        some ({ bids := stepSide bl brest buy btail (min buy.quantity sell.quantity),
                asks := stepSide al arest sell stail (min buy.quantity sell.quantity),
                order_lookup := stepLookup sell (min buy.quantity sell.quantity)
                  (stepLookup buy (min buy.quantity sell.quantity) b.order_lookup),
                total_orders_added := b.total_orders_added,
                total_orders_cancelled := b.total_orders_cancelled,
                total_orders_matched := b.total_orders_matched + 1 },
              { buy_order_id := buy.order_id, sell_order_id := sell.order_id,
                quantity := min buy.quantity sell.quantity, price := sell.price })
      | _, _ => none
  | _, _ => none

/-- The crossing loop with explicit fuel, collecting emitted trades in order. -/
def matchLoop : Nat → Book → Book × List Trade
  | 0, b => (b, [])
  | fuel + 1, b =>
    match matchStep b with
    | none => (b, [])
    | some (b', t) =>
      let r := matchLoop fuel b'
      (r.1, t :: r.2)

/-- `OrderBook::match_orders`; fuel `numOrders b` always reaches the loop's
break condition (`matchLoop_exhausts`). -/
def match_orders (b : Book) : Book × List Trade :=
  matchLoop (numOrders b) b

/-- `OrderBook::add_order`. -/
def add_order (o : Order) (b : Book) : Book × List Trade :=
  let b1 : Book :=
    if o.is_buy then
      { b with total_orders_added := b.total_orders_added + 1,
               bids := insertBid o b.bids,
               order_lookup := lookupInsert o.order_id ⟨true, o.price⟩ b.order_lookup }
    else
      { b with total_orders_added := b.total_orders_added + 1,
               asks := insertAsk o b.asks,
               order_lookup := lookupInsert o.order_id ⟨false, o.price⟩ b.order_lookup }
  match_orders b1

/-- First order with the given id in a queue. -/
def findById (id : Nat) : List Order → Option Order
  | [] => none
  | o :: os => if o.order_id = id then some o else findById id os

/-- Remove the first order with the given id from a queue. -/
def eraseFirstById (id : Nat) : List Order → List Order
  | [] => []
  | o :: os => if o.order_id = id then os else o :: eraseFirstById id os

/-- `OrderBook::remove_order_from_book` on one side: find the level at the
locator's price (`find` returning `end` leaves the side untouched), subtract
the removed order's remaining quantity from the level total, unlink it from
the queue, and erase the level if the queue emptied.  The order is located by
id; in every reachable state this is exactly the node the stored `list_iter`
points at. -/
def removeOrderFromSide (id : Nat) (price : Int) :
    List PriceLevelData → List PriceLevelData
  | [] => []
  | l :: rest =>
    if l.price = price then
      match findById id l.orders with
      | none => l :: rest
      | some o =>
        if eraseFirstById id l.orders = [] then rest
        else { l with orders := eraseFirstById id l.orders,
                      total_quantity := l.total_quantity - o.quantity } :: rest
    else
      l :: removeOrderFromSide id price rest

/-- `OrderBook::cancel_order`. -/
def cancel_order (id : Nat) (b : Book) : Book × Bool :=
  match lookupFind id b.order_lookup with
  | none => (b, false)
  | some loc =>
    let b1 : Book :=
      if loc.is_bid then { b with bids := removeOrderFromSide id loc.price b.bids }
      else { b with asks := removeOrderFromSide id loc.price b.asks }
    ({ b1 with order_lookup := eraseKey id b1.order_lookup,
               total_orders_cancelled := b1.total_orders_cancelled + 1 }, true)

/-- Find the resting order a locator entry points at. -/
def findInSide (id : Nat) (price : Int) : List PriceLevelData → Option Order
  | [] => none
  | l :: rest => if l.price = price then findById id l.orders else findInSide id price rest

/-- In-place quantity update of the amend fast path: set the order's
remaining quantity and recompute the level total as
`total_quantity - old_quantity + new_quantity`. -/
def setQtyById (id : Nat) (q : Nat) : List Order → List Order
  | [] => []
  | o :: os => if o.order_id = id then { o with quantity := q } :: os else o :: setQtyById id q os

/-- The level walk of the quantity-only amend path (`bids_.find(loc.price)`
plus the two in-place writes). -/
def updateQtyInSide (id : Nat) (price : Int) (oldq newq : Nat) :
    List PriceLevelData → List PriceLevelData
  | [] => []
  | l :: rest =>
    if l.price = price then
      { l with orders := setQtyById id newq l.orders,
               total_quantity := l.total_quantity - oldq + newq } :: rest
    else
      l :: updateQtyInSide id price oldq newq rest

/-- `OrderBook::amend_order`.  Returns (book, trades, returned bool).
On a price change it is literally `cancel_order` then `add_order` of the
copied record with the new price and quantity; on a pure quantity change it
updates in place and reruns `match_orders`; if nothing changed it returns
`true` without touching the book.  (The `findInSide _ = none` case is where
the C++ would read a dangling pointer; it is unreachable from any reachable
state and modelled as a no-op.) -/
def amend_order (id : Nat) (new_price : Int) (new_quantity : Nat) (b : Book) :
    Book × List Trade × Bool :=
  match lookupFind id b.order_lookup with
  | none => (b, [], false)
  | some loc =>
    match findInSide id loc.price (if loc.is_bid then b.bids else b.asks) with
    | none => (b, [], true)
    | some o =>
      if new_price ≠ o.price then
        let b1 := (cancel_order id b).1
        let r := add_order { o with price := new_price, quantity := new_quantity } b1
        (r.1, r.2, true)
      else if new_quantity ≠ o.quantity then
        let b1 : Book :=
          if loc.is_bid then
            { b with bids := updateQtyInSide id loc.price o.quantity new_quantity b.bids }
          else
            { b with asks := updateQtyInSide id loc.price o.quantity new_quantity b.asks }
        let r := match_orders b1
        (r.1, r.2, true)
      else (b, [], true)

/-- `OrderBook::get_snapshot`. -/
def get_snapshot (depth : Nat) (b : Book) : List (Int × Nat) × List (Int × Nat) :=
  ((b.bids.take depth).map fun l => (l.price, l.total_quantity),
   (b.asks.take depth).map fun l => (l.price, l.total_quantity))

/-- `OrderBook::get_best_bid`. -/
def get_best_bid (b : Book) : Option (Int × Nat) :=
  match b.bids with
  | [] => none
  | l :: _ => some (l.price, l.total_quantity)

/-- `OrderBook::get_best_ask`. -/
def get_best_ask (b : Book) : Option (Int × Nat) :=
  match b.asks with
  | [] => none
  | l :: _ => some (l.price, l.total_quantity)

/-- `OrderBook::clear` (also run by the constructor state): empty book,
counters reset to zero. -/
def clear (_ : Book) : Book := emptyBook

/-! ## Book predicates -/

def pricesOf (ls : List PriceLevelData) : List Int := ls.map (·.price)

/-- The bid map's comparator order: strictly descending prices. -/
def SortedBids (ls : List PriceLevelData) : Prop := List.Pairwise (· > ·) (pricesOf ls)

/-- The ask map's comparator order: strictly ascending prices. -/
def SortedAsks (ls : List PriceLevelData) : Prop := List.Pairwise (· < ·) (pricesOf ls)

/-- Every level present on the side has a non-empty queue. -/
def NoEmptySide (ls : List PriceLevelData) : Prop := ∀ l ∈ ls, l.orders ≠ []

/-- Every level's `total_quantity` is the sum of its queued quantities. -/
def TotalsOKSide (ls : List PriceLevelData) : Prop :=
  ∀ l ∈ ls, l.total_quantity = sumQ l.orders

/-- Every resting bid price is strictly below every resting ask price. -/
def Uncrossed (b : Book) : Prop :=
  ∀ pb ∈ pricesOf b.bids, ∀ pa ∈ pricesOf b.asks, pb < pa

/-- Structural well-formedness short of uncrossedness (what survives inside
the crossing loop). -/
def PreInv (b : Book) : Prop :=
  SortedBids b.bids ∧ SortedAsks b.asks ∧
  NoEmptySide b.bids ∧ NoEmptySide b.asks ∧
  TotalsOKSide b.bids ∧ TotalsOKSide b.asks

/-- Full representation invariant between public operations. -/
def BookInv (b : Book) : Prop := PreInv b ∧ Uncrossed b

instance (ls : List PriceLevelData) : Decidable (SortedBids ls) :=
  inferInstanceAs (Decidable (List.Pairwise (· > ·) (pricesOf ls)))

instance (ls : List PriceLevelData) : Decidable (SortedAsks ls) :=
  inferInstanceAs (Decidable (List.Pairwise (· < ·) (pricesOf ls)))

instance (ls : List PriceLevelData) : Decidable (NoEmptySide ls) :=
  inferInstanceAs (Decidable (∀ l ∈ ls, l.orders ≠ []))

instance (ls : List PriceLevelData) : Decidable (TotalsOKSide ls) :=
  inferInstanceAs (Decidable (∀ l ∈ ls, l.total_quantity = sumQ l.orders))

instance (b : Book) : Decidable (Uncrossed b) :=
  inferInstanceAs (Decidable (∀ pb ∈ pricesOf b.bids, ∀ pa ∈ pricesOf b.asks, pb < pa))

/-- A public mutating command of the engine (snapshot/queries are pure). -/
inductive Op where
  | add : Order → Op
  | cancel : Nat → Op
  | amend : Nat → Int → Nat → Op
deriving DecidableEq, Repr

/-- Run one command, returning the new book and the trades it emitted
(`cancel_order` never emits any). -/
def applyOp (b : Book) : Op → Book × List Trade
  | Op.add o => add_order o b
  | Op.cancel id => ((cancel_order id b).1, [])
  | Op.amend id p q =>
    ((amend_order id p q b).1, (amend_order id p q b).2.1)

/-- Run a command sequence, concatenating all emitted trades in order. -/
def runOps (b : Book) : List Op → Book × List Trade
  | [] => (b, [])
  | op :: ops =>
    ((runOps (applyOp b op).1 ops).1,
     (applyOp b op).2 ++ (runOps (applyOp b op).1 ops).2)

/-- The states reachable through the public interface under the spec's valid
use (positive quantities on add, fresh ids on add, no amend to zero). -/
inductive Reachable : Book → Prop where
  | empty : Reachable emptyBook
  | add (b : Book) (o : Order) : Reachable b → 0 < o.quantity →
      lookupFind o.order_id b.order_lookup = none →
      Reachable (add_order o b).1
  | cancel (b : Book) (id : Nat) : Reachable b → Reachable (cancel_order id b).1
  | amend (b : Book) (id : Nat) (p : Int) (q : Nat) : Reachable b → 0 < q →
      Reachable (amend_order id p q b).1
  | clear_op (b : Book) : Reachable b → Reachable (clear b)

/-! Concrete books used to instantiate the claim theorems on explicit inputs. -/

def c3wBook : Book :=
  (add_order ⟨2, false, 105, 5, 0⟩ (add_order ⟨1, true, 100, 10, 0⟩ emptyBook).1).1

def c4wBook : Book :=
  (add_order ⟨11, false, 103, 7, 0⟩ (add_order ⟨10, true, 101, 4, 0⟩ emptyBook).1).1

def c8wBook : Book :=
  { bids := [{ price := 100, orders := [⟨1, true, 100, 5, 0⟩], total_quantity := 5 }],
    asks := [{ price := 99, orders := [⟨2, false, 99, 3, 0⟩], total_quantity := 3 }],
    order_lookup := [(1, ⟨true, 100⟩), (2, ⟨false, 99⟩)],
    total_orders_added := 2, total_orders_cancelled := 0, total_orders_matched := 0 }

def c10wBook : Book := (add_order ⟨7, true, 100, 6, 0⟩ emptyBook).1

def c5wBook : Book :=
  (add_order ⟨22, true, 100, 5, 0⟩ (add_order ⟨21, true, 100, 9, 0⟩ emptyBook).1).1

def c6wBook : Book := (add_order ⟨31, true, 100, 10, 0⟩ emptyBook).1

def c7wBook : Book :=
  (add_order ⟨42, true, 100, 5, 0⟩ (add_order ⟨41, true, 100, 3, 0⟩ emptyBook).1).1

def c2wBook : Book :=
  { bids := [{ price := 99, orders := [⟨1, true, 99, 5, 0⟩], total_quantity := 5 }],
    asks := [{ price := 101, orders := [⟨2, false, 101, 3, 0⟩, ⟨4, false, 101, 2, 0⟩],
               total_quantity := 5 },
             { price := 102, orders := [⟨3, false, 102, 4, 0⟩], total_quantity := 4 }],
    order_lookup := [(1, ⟨true, 99⟩), (2, ⟨false, 101⟩), (4, ⟨false, 101⟩),
                     (3, ⟨false, 102⟩)],
    total_orders_added := 4, total_orders_cancelled := 0, total_orders_matched := 0 }

/-! ## stepSide lemmas -/

theorem numSide_stepSide (lvl : PriceLevelData) (rest : List PriceLevelData)
    (hd : Order) (tl : List Order) (qty : Nat) :
    numSide (stepSide lvl rest hd tl qty) =
      if hd.quantity - qty = 0 then tl.length + numSide rest
      else tl.length + 1 + numSide rest := by
  unfold stepSide
  split
  · split
    · next h2 => simp [numSide, h2]
    · simp [numSide]
  · simp [numSide]

theorem stepSide_prices (lvl : PriceLevelData) (rest : List PriceLevelData)
    (hd : Order) (tl : List Order) (qty : Nat) :
    pricesOf (stepSide lvl rest hd tl qty) = pricesOf (lvl :: rest) ∨
    pricesOf (stepSide lvl rest hd tl qty) = pricesOf rest := by
  unfold stepSide
  split
  · split
    · right; rfl
    · left; simp [pricesOf]
  · left; simp [pricesOf]

theorem stepSide_noempty (lvl : PriceLevelData) (rest : List PriceLevelData)
    (hd : Order) (tl : List Order) (qty : Nat)
    (hrest : NoEmptySide rest) :
    NoEmptySide (stepSide lvl rest hd tl qty) := by
  unfold stepSide
  split
  · split
    · exact hrest
    · next h2 =>
      intro l hl
      rcases List.mem_cons.mp hl with hl | hl
      · subst hl; simpa using h2
      · exact hrest l hl
  · intro l hl
    rcases List.mem_cons.mp hl with hl | hl
    · subst hl; simp
    · exact hrest l hl

theorem stepSide_totals (lvl : PriceLevelData) (rest : List PriceLevelData)
    (hd : Order) (tl : List Order) (qty : Nat)
    (horders : lvl.orders = hd :: tl)
    (hqty : qty ≤ hd.quantity)
    (hlvl : lvl.total_quantity = sumQ lvl.orders)
    (hrest : TotalsOKSide rest) :
    TotalsOKSide (stepSide lvl rest hd tl qty) := by
  have hsum : lvl.total_quantity = hd.quantity + sumQ tl := by
    rw [hlvl, horders]; rfl
  unfold stepSide
  split
  · split
    · exact hrest
    · next h1 _ =>
      intro l hl
      rcases List.mem_cons.mp hl with hl | hl
      · subst hl; simp; omega
      · exact hrest l hl
  · next h1 =>
    intro l hl
    rcases List.mem_cons.mp hl with hl | hl
    · subst hl; simp [sumQ]; omega
    · exact hrest l hl

/-! ## matchStep lemmas -/

theorem matchStep_some_elim {b : Book} {b' : Book} {t : Trade}
    (h : matchStep b = some (b', t)) :
    ∃ bl brest al arest buy btail sell stail,
      b.bids = bl :: brest ∧ b.asks = al :: arest ∧
      bl.orders = buy :: btail ∧ al.orders = sell :: stail ∧
      al.price ≤ bl.price ∧
      b' = { bids := stepSide bl brest buy btail (min buy.quantity sell.quantity),
             asks := stepSide al arest sell stail (min buy.quantity sell.quantity),
             order_lookup := stepLookup sell (min buy.quantity sell.quantity)
               (stepLookup buy (min buy.quantity sell.quantity) b.order_lookup),
             total_orders_added := b.total_orders_added,
             total_orders_cancelled := b.total_orders_cancelled,
             total_orders_matched := b.total_orders_matched + 1 } ∧
      t = { buy_order_id := buy.order_id, sell_order_id := sell.order_id,
            quantity := min buy.quantity sell.quantity, price := sell.price } := by
  unfold matchStep at h
  rcases hbb : b.bids with _ | ⟨bl, brest⟩ <;> rw [hbb] at h
  · simp at h
  rcases hba : b.asks with _ | ⟨al, arest⟩ <;> rw [hba] at h
  · simp at h
  simp only [] at h
  split at h
  · simp at h
  next hpr =>
    rcases hbo : bl.orders with _ | ⟨buy, btail⟩ <;> rw [hbo] at h
    · simp at h
    rcases hao : al.orders with _ | ⟨sell, stail⟩ <;> rw [hao] at h
    · simp at h
    simp only [Option.some.injEq, Prod.mk.injEq] at h
    exact ⟨bl, brest, al, arest, buy, btail, sell, stail, rfl, rfl, hbo, hao,
      le_of_not_lt hpr, h.1.symm, h.2.symm⟩

theorem matchStep_decr {b b' : Book} {t : Trade}
    (h : matchStep b = some (b', t)) : numOrders b' < numOrders b := by
  obtain ⟨bl, brest, al, arest, buy, btail, sell, stail, hbb, hba, hbo, hao, _, hb', _⟩ :=
    matchStep_some_elim h
  subst hb'
  simp only [numOrders, hbb, hba, numSide, hbo, hao, numSide_stepSide, List.length_cons]
  have h1 : min buy.quantity sell.quantity ≤ buy.quantity := Nat.min_le_left _ _
  have h2 : min buy.quantity sell.quantity ≤ sell.quantity := Nat.min_le_right _ _
  have h3 : min buy.quantity sell.quantity = buy.quantity ∨
      min buy.quantity sell.quantity = sell.quantity := by
    rcases Nat.le_total buy.quantity sell.quantity with h' | h'
    · exact Or.inl (Nat.min_eq_left h')
    · exact Or.inr (Nat.min_eq_right h')
  set q := min buy.quantity sell.quantity with hq
  split_ifs <;> omega

theorem matchStep_none_of_numOrders_zero {b : Book} (h : numOrders b = 0) :
    matchStep b = none := by
  unfold matchStep
  rcases hbb : b.bids with _ | ⟨bl, brest⟩
  · rfl
  · rcases hba : b.asks with _ | ⟨al, arest⟩
    · rfl
    · have hbl : bl.orders = [] := by
        simp only [numOrders, numSide, hbb] at h
        exact List.length_eq_zero.mp (by omega)
      simp [hbl]

theorem matchLoop_exhausts : ∀ (fuel : Nat) (b : Book), numOrders b ≤ fuel →
    matchStep (matchLoop fuel b).1 = none := by
  intro fuel
  induction fuel with
  | zero =>
    intro b hb
    simp only [matchLoop]
    exact matchStep_none_of_numOrders_zero (Nat.le_zero.mp hb)
  | succ n ih =>
    intro b hb
    rcases hms : matchStep b with _ | ⟨b', t⟩
    · simp [matchLoop, hms]
    · have hlt := matchStep_decr hms
      simp only [matchLoop, hms]
      exact ih b' (by omega)

theorem matchLoop_no_trades {fuel : Nat} {b : Book}
    (h : (matchLoop fuel b).2 = []) : (matchLoop fuel b).1 = b := by
  cases fuel with
  | zero => rfl
  | succ n =>
    rcases hms : matchStep b with _ | ⟨b', t⟩
    · simp [matchLoop, hms]
    · simp [matchLoop, hms] at h

theorem matchLoop_counters : ∀ (fuel : Nat) (b : Book),
    (matchLoop fuel b).1.total_orders_added = b.total_orders_added ∧
    (matchLoop fuel b).1.total_orders_cancelled = b.total_orders_cancelled ∧
    (matchLoop fuel b).1.total_orders_matched =
      b.total_orders_matched + (matchLoop fuel b).2.length := by
  intro fuel
  induction fuel with
  | zero => intro b; simp [matchLoop]
  | succ n ih =>
    intro b
    rcases hms : matchStep b with _ | ⟨b', t⟩
    · simp [matchLoop, hms]
    · obtain ⟨_, _, _, _, _, _, _, _, _, _, _, _, _, hb', _⟩ := matchStep_some_elim hms
      have := ih b'
      simp only [matchLoop, hms]
      subst hb'
      simp only [List.length_cons]
      refine ⟨by simp [this.1], by simp [this.2.1], ?_⟩
      have h3 := this.2.2
      simp at h3 ⊢
      omega

theorem pairwise_stepSide {r : Int → Int → Prop} (lvl : PriceLevelData)
    (rest : List PriceLevelData) (hd : Order) (tl : List Order) (qty : Nat)
    (h : List.Pairwise r (pricesOf (lvl :: rest))) :
    List.Pairwise r (pricesOf (stepSide lvl rest hd tl qty)) := by
  rcases stepSide_prices lvl rest hd tl qty with he | he <;> rw [he]
  · exact h
  · unfold pricesOf at h ⊢
    rw [List.map_cons] at h
    exact (List.pairwise_cons.mp h).2

theorem head_max_of_sorted {lvl : PriceLevelData} {rest : List PriceLevelData}
    (hs : List.Pairwise (· > ·) (pricesOf (lvl :: rest))) :
    ∀ l ∈ rest, l.price < lvl.price := by
  intro l hl
  unfold pricesOf at hs
  rw [List.map_cons] at hs
  exact (List.pairwise_cons.mp hs).1 l.price (List.mem_map_of_mem _ hl)

theorem head_min_of_sorted {lvl : PriceLevelData} {rest : List PriceLevelData}
    (hs : List.Pairwise (· < ·) (pricesOf (lvl :: rest))) :
    ∀ l ∈ rest, lvl.price < l.price := by
  intro l hl
  unfold pricesOf at hs
  rw [List.map_cons] at hs
  exact (List.pairwise_cons.mp hs).1 l.price (List.mem_map_of_mem _ hl)

theorem matchStep_preInv {b b' : Book} {t : Trade}
    (h : matchStep b = some (b', t)) (hp : PreInv b) : PreInv b' := by
  obtain ⟨bl, brest, al, arest, buy, btail, sell, stail, hbb, hba, hbo, hao, hpr, hb', ht⟩ :=
    matchStep_some_elim h
  obtain ⟨hsb, hsa, hneb, hnea, htb, hta⟩ := hp
  rw [hbb] at hsb hneb htb
  rw [hba] at hsa hnea hta
  subst hb'
  refine ⟨?_, ?_, ?_, ?_, ?_, ?_⟩
  · exact pairwise_stepSide _ _ _ _ _ hsb
  · exact pairwise_stepSide _ _ _ _ _ hsa
  · exact stepSide_noempty _ _ _ _ _ (fun l hl => hneb l (List.mem_cons_of_mem _ hl))
  · exact stepSide_noempty _ _ _ _ _ (fun l hl => hnea l (List.mem_cons_of_mem _ hl))
  · exact stepSide_totals _ _ _ _ _ hbo (Nat.min_le_left _ _)
      (htb bl (List.mem_cons_self _ _)) (fun l hl => htb l (List.mem_cons_of_mem _ hl))
  · exact stepSide_totals _ _ _ _ _ hao (Nat.min_le_right _ _)
      (hta al (List.mem_cons_self _ _)) (fun l hl => hta l (List.mem_cons_of_mem _ hl))

theorem uncrossed_of_matchStep_none {b : Book} (h : matchStep b = none)
    (hsb : SortedBids b.bids) (hsa : SortedAsks b.asks)
    (hneb : NoEmptySide b.bids) (hnea : NoEmptySide b.asks) : Uncrossed b := by
  rcases hbb : b.bids with _ | ⟨bl, brest⟩
  · intro pb hpb; rw [hbb] at hpb; simp [pricesOf] at hpb
  rcases hba : b.asks with _ | ⟨al, arest⟩
  · intro pb _ pa hpa; rw [hba] at hpa; simp [pricesOf] at hpa
  have hbne := hneb bl (by rw [hbb]; exact List.mem_cons_self _ _)
  have hane := hnea al (by rw [hba]; exact List.mem_cons_self _ _)
  rcases hbo : bl.orders with _ | ⟨buy, btail⟩
  · exact absurd hbo hbne
  rcases hao : al.orders with _ | ⟨sell, stail⟩
  · exact absurd hao hane
  have hlt : bl.price < al.price := by
    by_contra hge
    unfold matchStep at h
    rw [hbb, hba] at h
    simp [hbo, hao, hge] at h
  rw [hbb] at hsb
  rw [hba] at hsa
  unfold SortedBids at hsb
  unfold SortedAsks at hsa
  intro pb hpb pa hpa
  rw [hbb] at hpb
  rw [hba] at hpa
  have h1 : pb ≤ bl.price := by
    unfold pricesOf at hpb
    rw [List.map_cons] at hpb
    rcases List.mem_cons.mp hpb with he | hm
    · rw [he]
    · obtain ⟨lb, hlb, he⟩ := List.mem_map.mp hm
      rw [← he]
      exact le_of_lt (head_max_of_sorted hsb lb hlb)
  have h2 : al.price ≤ pa := by
    unfold pricesOf at hpa
    rw [List.map_cons] at hpa
    rcases List.mem_cons.mp hpa with he | hm
    · rw [he]
    · obtain ⟨la, hla, he⟩ := List.mem_map.mp hm
      rw [← he]
      exact le_of_lt (head_min_of_sorted hsa la hla)
  omega

theorem matchLoop_preInv : ∀ (fuel : Nat) (b : Book), PreInv b →
    PreInv (matchLoop fuel b).1 := by
  intro fuel
  induction fuel with
  | zero => intro b hp; exact hp
  | succ n ih =>
    intro b hp
    rcases hms : matchStep b with _ | ⟨b', t⟩
    · simpa [matchLoop, hms] using hp
    · simp only [matchLoop, hms]
      exact ih b' (matchStep_preInv hms hp)

/-- After `match_orders` the book satisfies the full invariant: structural
well-formedness survives the loop and the loop's break condition yields
uncrossedness. -/
theorem match_orders_inv {b : Book} (hp : PreInv b) :
    BookInv (match_orders b).1 := by
  have hpre : PreInv (match_orders b).1 := matchLoop_preInv _ _ hp
  exact ⟨hpre, uncrossed_of_matchStep_none (matchLoop_exhausts _ _ le_rfl)
    hpre.1 hpre.2.1 hpre.2.2.1 hpre.2.2.2.1⟩

/-! ## insert / remove / update side lemmas -/

theorem sumQ_append (xs ys : List Order) : sumQ (xs ++ ys) = sumQ xs + sumQ ys := by
  induction xs with
  | nil => simp [sumQ]
  | cons x xs ih => simp [sumQ, ih]; omega

theorem insertBid_prices_subset (o : Order) (ls : List PriceLevelData) :
    ∀ p ∈ pricesOf (insertBid o ls), p = o.price ∨ p ∈ pricesOf ls := by
  induction ls with
  | nil => intro p hp; simp [insertBid, pricesOf] at hp; exact Or.inl hp
  | cons l ls ih =>
    intro p hp
    unfold insertBid at hp
    split_ifs at hp with h1 h2
    · simp [pricesOf] at hp ⊢
      tauto
    · simp [pricesOf] at hp ⊢
      tauto
    · simp only [pricesOf, List.map_cons, List.mem_cons] at hp ⊢
      rcases hp with hp | hp
      · tauto
      · rcases ih p hp with h | h
        · exact Or.inl h
        · exact Or.inr (Or.inr h)

theorem insertAsk_prices_subset (o : Order) (ls : List PriceLevelData) :
    ∀ p ∈ pricesOf (insertAsk o ls), p = o.price ∨ p ∈ pricesOf ls := by
  induction ls with
  | nil => intro p hp; simp [insertAsk, pricesOf] at hp; exact Or.inl hp
  | cons l ls ih =>
    intro p hp
    unfold insertAsk at hp
    split_ifs at hp with h1 h2
    · simp [pricesOf] at hp ⊢
      tauto
    · simp [pricesOf] at hp ⊢
      tauto
    · simp only [pricesOf, List.map_cons, List.mem_cons] at hp ⊢
      rcases hp with hp | hp
      · tauto
      · rcases ih p hp with h | h
        · exact Or.inl h
        · exact Or.inr (Or.inr h)

theorem insertBid_sorted (o : Order) (ls : List PriceLevelData)
    (h : SortedBids ls) : SortedBids (insertBid o ls) := by
  induction ls with
  | nil => simp [insertBid, SortedBids, pricesOf]
  | cons l ls ih =>
    unfold SortedBids at h ⊢
    unfold insertBid
    split_ifs with h1 h2
    · simp only [pricesOf, List.map_cons] at h ⊢
      rw [List.pairwise_cons]
      refine ⟨?_, h⟩
      intro p hp
      rcases List.mem_cons.mp hp with he | hm
      · omega
      · have := (List.pairwise_cons.mp h).1 p hm
        omega
    · simp only [pricesOf, List.map_cons] at h ⊢
      simpa using h
    · simp only [pricesOf, List.map_cons] at h ⊢
      rw [List.pairwise_cons] at h ⊢
      refine ⟨?_, ih h.2⟩
      intro p hp
      rcases insertBid_prices_subset o ls p hp with he | hm
      · omega
      · exact h.1 p hm

theorem insertAsk_sorted (o : Order) (ls : List PriceLevelData)
    (h : SortedAsks ls) : SortedAsks (insertAsk o ls) := by
  induction ls with
  | nil => simp [insertAsk, SortedAsks, pricesOf]
  | cons l ls ih =>
    unfold SortedAsks at h ⊢
    unfold insertAsk
    split_ifs with h1 h2
    · simp only [pricesOf, List.map_cons] at h ⊢
      rw [List.pairwise_cons]
      refine ⟨?_, h⟩
      intro p hp
      rcases List.mem_cons.mp hp with he | hm
      · omega
      · have := (List.pairwise_cons.mp h).1 p hm
        omega
    · simp only [pricesOf, List.map_cons] at h ⊢
      simpa using h
    · simp only [pricesOf, List.map_cons] at h ⊢
      rw [List.pairwise_cons] at h ⊢
      refine ⟨?_, ih h.2⟩
      intro p hp
      rcases insertAsk_prices_subset o ls p hp with he | hm
      · omega
      · exact h.1 p hm

theorem insertBid_noempty (o : Order) (ls : List PriceLevelData)
    (h : NoEmptySide ls) : NoEmptySide (insertBid o ls) := by
  induction ls with
  | nil => intro l hl; simp [insertBid] at hl; subst hl; simp
  | cons x xs ih =>
    intro l hl
    unfold insertBid at hl
    split_ifs at hl with h1 h2
    · rcases List.mem_cons.mp hl with he | hm
      · subst he; simp
      · exact h l hm
    · rcases List.mem_cons.mp hl with he | hm
      · subst he; simp
      · exact h l (List.mem_cons_of_mem _ hm)
    · rcases List.mem_cons.mp hl with he | hm
      · rw [he]; exact h x (List.mem_cons_self _ _)
      · exact ih (fun a ha => h a (List.mem_cons_of_mem _ ha)) l hm

theorem insertAsk_noempty (o : Order) (ls : List PriceLevelData)
    (h : NoEmptySide ls) : NoEmptySide (insertAsk o ls) := by
  induction ls with
  | nil => intro l hl; simp [insertAsk] at hl; subst hl; simp
  | cons x xs ih =>
    intro l hl
    unfold insertAsk at hl
    split_ifs at hl with h1 h2
    · rcases List.mem_cons.mp hl with he | hm
      · subst he; simp
      · exact h l hm
    · rcases List.mem_cons.mp hl with he | hm
      · subst he; simp
      · exact h l (List.mem_cons_of_mem _ hm)
    · rcases List.mem_cons.mp hl with he | hm
      · rw [he]; exact h x (List.mem_cons_self _ _)
      · exact ih (fun a ha => h a (List.mem_cons_of_mem _ ha)) l hm

theorem insertBid_totals (o : Order) (ls : List PriceLevelData)
    (h : TotalsOKSide ls) : TotalsOKSide (insertBid o ls) := by
  induction ls with
  | nil => intro l hl; simp [insertBid] at hl; subst hl; simp [sumQ]
  | cons x xs ih =>
    intro l hl
    unfold insertBid at hl
    split_ifs at hl with h1 h2
    · rcases List.mem_cons.mp hl with he | hm
      · subst he; simp [sumQ]
      · exact h l hm
    · rcases List.mem_cons.mp hl with he | hm
      · subst he
        have hx := h x (List.mem_cons_self _ _)
        simp [sumQ_append, sumQ, hx]
      · exact h l (List.mem_cons_of_mem _ hm)
    · rcases List.mem_cons.mp hl with he | hm
      · rw [he]; exact h x (List.mem_cons_self _ _)
      · exact ih (fun a ha => h a (List.mem_cons_of_mem _ ha)) l hm

theorem insertAsk_totals (o : Order) (ls : List PriceLevelData)
    (h : TotalsOKSide ls) : TotalsOKSide (insertAsk o ls) := by
  induction ls with
  | nil => intro l hl; simp [insertAsk] at hl; subst hl; simp [sumQ]
  | cons x xs ih =>
    intro l hl
    unfold insertAsk at hl
    split_ifs at hl with h1 h2
    · rcases List.mem_cons.mp hl with he | hm
      · subst he; simp [sumQ]
      · exact h l hm
    · rcases List.mem_cons.mp hl with he | hm
      · subst he
        have hx := h x (List.mem_cons_self _ _)
        simp [sumQ_append, sumQ, hx]
      · exact h l (List.mem_cons_of_mem _ hm)
    · rcases List.mem_cons.mp hl with he | hm
      · rw [he]; exact h x (List.mem_cons_self _ _)
      · exact ih (fun a ha => h a (List.mem_cons_of_mem _ ha)) l hm

theorem findById_erase_sumQ (id : Nat) (os : List Order) (o : Order)
    (h : findById id os = some o) :
    o.quantity ≤ sumQ os ∧ sumQ (eraseFirstById id os) = sumQ os - o.quantity := by
  induction os with
  | nil => simp [findById] at h
  | cons x xs ih =>
    unfold findById at h
    unfold eraseFirstById
    split_ifs at h with h1
    · simp only [Option.some.injEq] at h
      subst h
      rw [if_pos h1]
      simp [sumQ]
    · rw [if_neg h1]
      have := ih h
      simp [sumQ]
      omega

theorem removeOrderFromSide_prices_sublist (id : Nat) (price : Int)
    (ls : List PriceLevelData) :
    (pricesOf (removeOrderFromSide id price ls)).Sublist (pricesOf ls) := by
  induction ls with
  | nil => simp [removeOrderFromSide]
  | cons l rest ih =>
    by_cases h1 : l.price = price
    · rcases hf : findById id l.orders with _ | o
      · simp [removeOrderFromSide, h1, hf]
      · by_cases h2 : eraseFirstById id l.orders = []
        · simp only [removeOrderFromSide, h1, hf, if_true, eq_self_iff_true, if_pos h2]
          simp only [pricesOf, List.map_cons]
          exact List.Sublist.cons _ (List.Sublist.refl _)
        · simp only [removeOrderFromSide, h1, hf, if_true, eq_self_iff_true, if_neg h2]
          simp only [pricesOf, List.map_cons]
          rw [h1]
    · simp only [removeOrderFromSide, if_neg h1]
      simp only [pricesOf, List.map_cons]
      exact List.Sublist.cons₂ _ ih

theorem removeOrderFromSide_noempty (id : Nat) (price : Int)
    (ls : List PriceLevelData) (h : NoEmptySide ls) :
    NoEmptySide (removeOrderFromSide id price ls) := by
  induction ls with
  | nil => simpa [removeOrderFromSide] using h
  | cons l rest ih =>
    by_cases h1 : l.price = price
    · rcases hf : findById id l.orders with _ | o
      · simp only [removeOrderFromSide, h1, hf, if_true, eq_self_iff_true]
        exact h
      · by_cases h2 : eraseFirstById id l.orders = []
        · simp only [removeOrderFromSide, h1, hf, if_true, eq_self_iff_true, if_pos h2]
          exact fun a ha => h a (List.mem_cons_of_mem _ ha)
        · simp only [removeOrderFromSide, h1, hf, if_true, eq_self_iff_true, if_neg h2]
          intro a ha
          rcases List.mem_cons.mp ha with he | hm
          · rw [he]; simpa using h2
          · exact h a (List.mem_cons_of_mem _ hm)
    · simp only [removeOrderFromSide, if_neg h1]
      intro a ha
      rcases List.mem_cons.mp ha with he | hm
      · rw [he]; exact h l (List.mem_cons_self _ _)
      · exact ih (fun x hx => h x (List.mem_cons_of_mem _ hx)) a hm

theorem removeOrderFromSide_totals (id : Nat) (price : Int)
    (ls : List PriceLevelData) (h : TotalsOKSide ls) :
    TotalsOKSide (removeOrderFromSide id price ls) := by
  induction ls with
  | nil => simpa [removeOrderFromSide] using h
  | cons l rest ih =>
    by_cases h1 : l.price = price
    · rcases hf : findById id l.orders with _ | o
      · simp only [removeOrderFromSide, h1, hf, if_true, eq_self_iff_true]
        exact h
      · by_cases h2 : eraseFirstById id l.orders = []
        · simp only [removeOrderFromSide, h1, hf, if_true, eq_self_iff_true, if_pos h2]
          exact fun a ha => h a (List.mem_cons_of_mem _ ha)
        · simp only [removeOrderFromSide, h1, hf, if_true, eq_self_iff_true, if_neg h2]
          intro a ha
          rcases List.mem_cons.mp ha with he | hm
          · rw [he]
            have hl := h l (List.mem_cons_self _ _)
            have he2 := findById_erase_sumQ id l.orders o hf
            simp only []
            omega
          · exact h a (List.mem_cons_of_mem _ hm)
    · simp only [removeOrderFromSide, if_neg h1]
      intro a ha
      rcases List.mem_cons.mp ha with he | hm
      · rw [he]; exact h l (List.mem_cons_self _ _)
      · exact ih (fun x hx => h x (List.mem_cons_of_mem _ hx)) a hm

theorem setQtyById_eq_nil_iff (id : Nat) (q : Nat) (os : List Order) :
    setQtyById id q os = [] ↔ os = [] := by
  induction os with
  | nil => simp [setQtyById]
  | cons x xs _ =>
    unfold setQtyById
    split_ifs <;> simp

theorem findById_setQty_sumQ (id : Nat) (q : Nat) (os : List Order) (o : Order)
    (h : findById id os = some o) :
    o.quantity ≤ sumQ os ∧ sumQ (setQtyById id q os) = sumQ os - o.quantity + q := by
  induction os with
  | nil => simp [findById] at h
  | cons x xs ih =>
    unfold findById at h
    unfold setQtyById
    split_ifs at h with h1
    · simp only [Option.some.injEq] at h
      subst h
      rw [if_pos h1]
      simp [sumQ]
      omega
    · rw [if_neg h1]
      have := ih h
      simp [sumQ]
      omega

theorem updateQtyInSide_prices (id : Nat) (price : Int) (oldq newq : Nat)
    (ls : List PriceLevelData) :
    pricesOf (updateQtyInSide id price oldq newq ls) = pricesOf ls := by
  induction ls with
  | nil => rfl
  | cons l rest ih =>
    unfold updateQtyInSide
    split_ifs with h1
    · simp [pricesOf]
    · simp only [pricesOf, List.map_cons] at ih ⊢
      rw [ih]

theorem updateQtyInSide_noempty (id : Nat) (price : Int) (oldq newq : Nat)
    (ls : List PriceLevelData) (h : NoEmptySide ls) :
    NoEmptySide (updateQtyInSide id price oldq newq ls) := by
  induction ls with
  | nil => simpa [updateQtyInSide] using h
  | cons l rest ih =>
    unfold updateQtyInSide
    split_ifs with h1
    · intro a ha
      rcases List.mem_cons.mp ha with he | hm
      · rw [he]
        simp only [ne_eq, setQtyById_eq_nil_iff]
        exact h l (List.mem_cons_self _ _)
      · exact h a (List.mem_cons_of_mem _ hm)
    · intro a ha
      rcases List.mem_cons.mp ha with he | hm
      · rw [he]; exact h l (List.mem_cons_self _ _)
      · exact ih (fun x hx => h x (List.mem_cons_of_mem _ hx)) a hm

theorem updateQtyInSide_totals (id : Nat) (price : Int) (newq : Nat)
    (ls : List PriceLevelData) (o : Order)
    (hfind : findInSide id price ls = some o)
    (h : TotalsOKSide ls) :
    TotalsOKSide (updateQtyInSide id price o.quantity newq ls) := by
  induction ls with
  | nil => simp [findInSide] at hfind
  | cons l rest ih =>
    by_cases h1 : l.price = price
    · have hf : findById id l.orders = some o := by
        unfold findInSide at hfind
        rwa [if_pos h1] at hfind
      simp only [updateQtyInSide, if_pos h1]
      intro a ha
      rcases List.mem_cons.mp ha with he | hm
      · rw [he]
        have hl := h l (List.mem_cons_self _ _)
        have hs := findById_setQty_sumQ id newq l.orders o hf
        simp only []
        omega
      · exact h a (List.mem_cons_of_mem _ hm)
    · have hfind' : findInSide id price rest = some o := by
        unfold findInSide at hfind
        rwa [if_neg h1] at hfind
      simp only [updateQtyInSide, if_neg h1]
      intro a ha
      rcases List.mem_cons.mp ha with he | hm
      · rw [he]; exact h l (List.mem_cons_self _ _)
      · exact ih hfind' (fun x hx => h x (List.mem_cons_of_mem _ hx)) a hm

/-! ## Public operations preserve the invariant -/

theorem add_order_inv {o : Order} {b : Book} (hp : PreInv b) :
    BookInv (add_order o b).1 := by
  obtain ⟨hsb, hsa, hneb, hnea, htb, hta⟩ := hp
  unfold add_order
  by_cases hb : o.is_buy = true
  · simp only [hb, if_true]
    exact match_orders_inv ⟨insertBid_sorted o _ hsb, hsa, insertBid_noempty o _ hneb,
      hnea, insertBid_totals o _ htb, hta⟩
  · simp only [hb, if_false]
    exact match_orders_inv ⟨hsb, insertAsk_sorted o _ hsa, hneb,
      insertAsk_noempty o _ hnea, htb, insertAsk_totals o _ hta⟩

theorem cancel_order_inv {id : Nat} {b : Book} (hi : BookInv b) :
    BookInv (cancel_order id b).1 := by
  obtain ⟨⟨hsb, hsa, hneb, hnea, htb, hta⟩, hu⟩ := hi
  rcases hlk : lookupFind id b.order_lookup with _ | loc
  · simp only [cancel_order, hlk]
    exact ⟨⟨hsb, hsa, hneb, hnea, htb, hta⟩, hu⟩
  · by_cases hbid : loc.is_bid = true
    · simp only [cancel_order, hlk, hbid, if_true]
      refine ⟨⟨?_, hsa, ?_, hnea, ?_, hta⟩, ?_⟩
      · exact List.Pairwise.sublist (removeOrderFromSide_prices_sublist id loc.price b.bids) hsb
      · exact removeOrderFromSide_noempty _ _ _ hneb
      · exact removeOrderFromSide_totals _ _ _ htb
      · intro pb hpb pa hpa
        exact hu pb ((removeOrderFromSide_prices_sublist _ _ _).subset hpb) pa hpa
    · simp only [cancel_order, hlk, hbid, if_false]
      refine ⟨⟨hsb, ?_, hneb, ?_, htb, ?_⟩, ?_⟩
      · exact List.Pairwise.sublist (removeOrderFromSide_prices_sublist id loc.price b.asks) hsa
      · exact removeOrderFromSide_noempty _ _ _ hnea
      · exact removeOrderFromSide_totals _ _ _ hta
      · intro pb hpb pa hpa
        exact hu pb hpb pa ((removeOrderFromSide_prices_sublist _ _ _).subset hpa)

theorem amend_order_inv {id : Nat} {p : Int} {q : Nat} {b : Book} (hi : BookInv b) :
    BookInv (amend_order id p q b).1 := by
  rcases hlk : lookupFind id b.order_lookup with _ | loc
  · simp only [amend_order, hlk]
    exact hi
  · rcases hfs : findInSide id loc.price (if loc.is_bid then b.bids else b.asks) with _ | o
    · simp only [amend_order, hlk, hfs]
      exact hi
    · by_cases hne : p ≠ o.price
      · simp only [amend_order, hlk, hfs, if_pos hne]
        exact add_order_inv (cancel_order_inv hi).1
      · by_cases hq : q ≠ o.quantity
        · simp only [amend_order, hlk, hfs, if_neg hne, if_pos hq]
          obtain ⟨⟨hsb, hsa, hneb, hnea, htb, hta⟩, _⟩ := hi
          by_cases hbid : loc.is_bid = true
          · rw [if_pos hbid] at hfs
            simp only [hbid, if_true]
            refine match_orders_inv ⟨?_, hsa, ?_, hnea, ?_, hta⟩
            · unfold SortedBids
              rw [updateQtyInSide_prices]
              exact hsb
            · exact updateQtyInSide_noempty _ _ _ _ _ hneb
            · exact updateQtyInSide_totals _ _ _ _ _ hfs htb
          · rw [if_neg hbid] at hfs
            simp only [hbid, Bool.false_eq_true, if_false]
            refine match_orders_inv ⟨hsb, ?_, hneb, ?_, htb, ?_⟩
            · unfold SortedAsks
              rw [updateQtyInSide_prices]
              exact hsa
            · exact updateQtyInSide_noempty _ _ _ _ _ hnea
            · exact updateQtyInSide_totals _ _ _ _ _ hfs hta
        · simp only [amend_order, hlk, hfs, if_neg hne, if_neg hq]
          exact hi

theorem emptyBook_inv : BookInv emptyBook := by
  refine ⟨⟨?_, ?_, ?_, ?_, ?_, ?_⟩, ?_⟩ <;>
    simp [SortedBids, SortedAsks, NoEmptySide, TotalsOKSide, Uncrossed, pricesOf, emptyBook]

theorem reachable_inv {b : Book} (h : Reachable b) : BookInv b := by
  induction h with
  | empty => exact emptyBook_inv
  | add b o _ _ _ ih => exact add_order_inv ih.1
  | cancel b id _ ih => exact cancel_order_inv ih
  | amend b id p q _ _ ih => exact amend_order_inv ih
  | clear_op b _ _ => exact emptyBook_inv

/-! ## Counter lemmas -/

theorem match_orders_counters (b : Book) :
    (match_orders b).1.total_orders_added = b.total_orders_added ∧
    (match_orders b).1.total_orders_cancelled = b.total_orders_cancelled ∧
    (match_orders b).1.total_orders_matched =
      b.total_orders_matched + (match_orders b).2.length :=
  matchLoop_counters (numOrders b) b

theorem add_order_counters (o : Order) (b : Book) :
    (add_order o b).1.total_orders_added = b.total_orders_added + 1 ∧
    (add_order o b).1.total_orders_cancelled = b.total_orders_cancelled ∧
    (add_order o b).1.total_orders_matched =
      b.total_orders_matched + (add_order o b).2.length := by
  unfold add_order
  by_cases hb : o.is_buy = true
  · simp only [hb, if_true]
    exact match_orders_counters _
  · simp only [hb, if_false]
    exact match_orders_counters _

theorem cancel_order_counters_found (id : Nat) (b : Book) (loc : OrderLocation)
    (h : lookupFind id b.order_lookup = some loc) :
    (cancel_order id b).1.total_orders_added = b.total_orders_added ∧
    (cancel_order id b).1.total_orders_cancelled = b.total_orders_cancelled + 1 ∧
    (cancel_order id b).1.total_orders_matched = b.total_orders_matched ∧
    (cancel_order id b).2 = true := by
  simp only [cancel_order, h]
  by_cases hbid : loc.is_bid = true <;> simp [hbid]

theorem cancel_order_notfound (id : Nat) (b : Book)
    (h : lookupFind id b.order_lookup = none) :
    cancel_order id b = (b, false) := by
  simp [cancel_order, h]

theorem amend_order_counters (id : Nat) (p : Int) (q : Nat) (b : Book) :
    (amend_order id p q b).1.total_orders_matched =
      b.total_orders_matched + (amend_order id p q b).2.1.length := by
  rcases hlk : lookupFind id b.order_lookup with _ | loc
  · simp [amend_order, hlk]
  · rcases hfs : findInSide id loc.price (if loc.is_bid then b.bids else b.asks) with _ | o
    · simp [amend_order, hlk, hfs]
    · by_cases hne : p ≠ o.price
      · simp only [amend_order, hlk, hfs, if_pos hne]
        have hc := cancel_order_counters_found id b loc hlk
        have ha := add_order_counters { o with price := p, quantity := q } (cancel_order id b).1
        omega
      · by_cases hq : q ≠ o.quantity
        · simp only [amend_order, hlk, hfs, if_neg hne, if_pos hq]
          by_cases hbid : loc.is_bid = true
          · simp only [hbid, if_true]
            exact (match_orders_counters _).2.2
          · simp only [hbid, Bool.false_eq_true, if_false]
            exact (match_orders_counters _).2.2
        · simp [amend_order, hlk, hfs, if_neg hne, if_neg hq]

theorem applyOp_matched (b : Book) (op : Op) :
    (applyOp b op).1.total_orders_matched =
      b.total_orders_matched + (applyOp b op).2.length := by
  cases op with
  | add o => exact (add_order_counters o b).2.2
  | cancel id =>
    rcases hlk : lookupFind id b.order_lookup with _ | loc
    · simp [applyOp, cancel_order_notfound id b hlk]
    · simpa [applyOp] using (cancel_order_counters_found id b loc hlk).2.2.1
  | amend id p q => simpa [applyOp] using amend_order_counters id p q b

theorem runOps_matched (ops : List Op) (b : Book) :
    (runOps b ops).1.total_orders_matched =
      b.total_orders_matched + (runOps b ops).2.length := by
  induction ops generalizing b with
  | nil => simp [runOps]
  | cons op ops ih =>
    have h1 := applyOp_matched b op
    have h2 := ih (applyOp b op).1
    simp only [runOps, List.length_append]
    omega

theorem matchLoop_of_none {b : Book} (h : matchStep b = none) :
    ∀ fuel, matchLoop fuel b = (b, []) := by
  intro fuel
  cases fuel with
  | zero => rfl
  | succ n => simp [matchLoop, h]

theorem matchLoop_stable : ∀ (n m : Nat) (b : Book), numOrders b ≤ n → n ≤ m →
    matchLoop m b = matchLoop n b := by
  intro n
  induction n with
  | zero =>
    intro m b hb _
    rw [matchLoop_of_none (matchStep_none_of_numOrders_zero (Nat.le_zero.mp hb)) m]
    rfl
  | succ n ih =>
    intro m b hb hm
    rcases m with _ | m'
    · omega
    rcases hms : matchStep b with _ | ⟨b', t⟩
    · rw [matchLoop_of_none hms, matchLoop_of_none hms]
    · have hd := matchStep_decr hms
      simp only [matchLoop, hms]
      rw [ih m' b' (by omega) (by omega)]

/-! ## Claim theorems -/

/-- C1: the claim says every emitted trade is priced at the resting order's
price.  The code hardcodes `sell_order->price`, so when the aggressor is a
sell crossing a resting bid the emitted price is the aggressor's, not the
resting bid's.  Concretely: a bid resting at 100 hit by an incoming sell at
99 produces a trade reported at 99, while the resting order's price is
100. -/
theorem C1_sell_aggressor_gets_aggressor_price :
    (add_order ⟨1, true, 100, 10, 0⟩ emptyBook).1.bids.map (fun l => l.price) = [100] ∧
    (add_order ⟨2, false, 99, 10, 0⟩ (add_order ⟨1, true, 100, 10, 0⟩ emptyBook).1).2 =
      [{ buy_order_id := 1, sell_order_id := 2, quantity := 10, price := 99 }] ∧
    (99 : Int) ≠ 100 := by
  refine ⟨by decide, by decide, by decide⟩

/-- C3: in every state reachable through the public operations, whenever both
sides of the book are non-empty the best bid price is strictly below the best
ask price. -/
theorem C3_book_never_crossed (b : Book) (h : Reachable b)
    (hb : b.bids ≠ []) (ha : b.asks ≠ []) :
    ∃ pb qb pa qa, get_best_bid b = some (pb, qb) ∧ get_best_ask b = some (pa, qa) ∧
      pb < pa := by
  obtain ⟨_, hu⟩ := reachable_inv h
  rcases hbb : b.bids with _ | ⟨bl, brest⟩
  · exact absurd hbb hb
  rcases hba : b.asks with _ | ⟨al, arest⟩
  · exact absurd hba ha
  refine ⟨bl.price, bl.total_quantity, al.price, al.total_quantity, ?_, ?_, ?_⟩
  · simp [get_best_bid, hbb]
  · simp [get_best_ask, hba]
  · refine hu bl.price ?_ al.price ?_
    · rw [hbb]; exact List.mem_map_of_mem _ (List.mem_cons_self _ _)
    · rw [hba]; exact List.mem_map_of_mem _ (List.mem_cons_self _ _)


theorem C3_book_never_crossed_witness :
    c3wBook.bids ≠ [] ∧ c3wBook.asks ≠ [] ∧
    (∃ pb qb pa qa, get_best_bid c3wBook = some (pb, qb) ∧
      get_best_ask c3wBook = some (pa, qa) ∧ pb < pa) :=
  ⟨by decide, by decide,
   C3_book_never_crossed c3wBook
     (Reachable.add _ _ (Reachable.add _ _ Reachable.empty (by decide) (by decide))
       (by decide) (by decide))
     (by decide) (by decide)⟩

/-- C4: in every state reachable under valid use, every price level present
in a side index has a non-empty queue and its `total_quantity` equals the sum
of the remaining quantities of its queued orders. -/
theorem C4_levels_nonempty_totals_exact (b : Book) (h : Reachable b) :
    (∀ l ∈ b.bids, l.orders ≠ [] ∧ l.total_quantity = sumQ l.orders) ∧
    (∀ l ∈ b.asks, l.orders ≠ [] ∧ l.total_quantity = sumQ l.orders) := by
  obtain ⟨⟨_, _, hneb, hnea, htb, hta⟩, _⟩ := reachable_inv h
  exact ⟨fun l hl => ⟨hneb l hl, htb l hl⟩, fun l hl => ⟨hnea l hl, hta l hl⟩⟩


theorem C4_levels_nonempty_totals_exact_witness :
    (∀ l ∈ c4wBook.bids, l.orders ≠ [] ∧ l.total_quantity = sumQ l.orders) ∧
    (∀ l ∈ c4wBook.asks, l.orders ≠ [] ∧ l.total_quantity = sumQ l.orders) :=
  C4_levels_nonempty_totals_exact c4wBook
    (Reachable.add _ _ (Reachable.add _ _ Reachable.empty (by decide) (by decide))
      (by decide) (by decide))

/-- C8: on any book whose live orders all have strictly positive quantity,
the crossing loop reaches its own break condition: running it with fuel equal
to the number of resting orders ends in a state where the loop guard fails,
and any larger fuel computes the same result (each iteration removes at least
one fully filled head order, so the live-order count strictly decreases). -/
theorem C8_crossing_loop_terminates (b : Book)
    (_hpos : ∀ o ∈ sideOrders b.bids ++ sideOrders b.asks, 0 < o.quantity) :
    matchStep (match_orders b).1 = none ∧
    ∀ fuel, numOrders b ≤ fuel → matchLoop fuel b = match_orders b := by
  refine ⟨matchLoop_exhausts _ _ le_rfl, ?_⟩
  intro fuel hf
  exact matchLoop_stable (numOrders b) fuel b le_rfl hf


theorem C8_crossing_loop_terminates_witness :
    (∀ o ∈ sideOrders c8wBook.bids ++ sideOrders c8wBook.asks, 0 < o.quantity) ∧
    matchStep (match_orders c8wBook).1 = none :=
  ⟨by decide, (C8_crossing_loop_terminates c8wBook (by decide)).1⟩

/-- C9: `total_orders_matched` always equals the number of trade events
emitted since construction (`emptyBook`) or since the last `clear`, across
any sequence of public operations; `clear` resets it to zero. -/
theorem C9_matched_equals_trade_count (ops : List Op) (b : Book) :
    (clear b).total_orders_matched = 0 ∧
    (runOps (clear b) ops).1.total_orders_matched = (runOps (clear b) ops).2.length ∧
    (runOps emptyBook ops).1.total_orders_matched = (runOps emptyBook ops).2.length := by
  refine ⟨rfl, ?_, ?_⟩
  · have h := runOps_matched ops (clear b)
    simpa [clear, emptyBook] using h
  · have h := runOps_matched ops emptyBook
    simpa [emptyBook] using h

/-- C10: a price-changing amend of a live order is implemented as cancel
followed by add, so it returns true and leaves `total_orders_added` and
`total_orders_cancelled` each exactly one higher (hence at least one higher)
even though the caller issued neither an add nor a cancel. -/
theorem C10_price_amend_bumps_counters (b : Book) (id : Nat) (new_price : Int)
    (new_quantity : Nat) (loc : OrderLocation) (o : Order)
    (h1 : lookupFind id b.order_lookup = some loc)
    (h2 : findInSide id loc.price (if loc.is_bid then b.bids else b.asks) = some o)
    (h3 : new_price ≠ o.price) :
    (amend_order id new_price new_quantity b).2.2 = true ∧
    (amend_order id new_price new_quantity b).1.total_orders_added =
      b.total_orders_added + 1 ∧
    (amend_order id new_price new_quantity b).1.total_orders_cancelled =
      b.total_orders_cancelled + 1 := by
  simp only [amend_order, h1, h2, if_pos h3]
  have hc := cancel_order_counters_found id b loc h1
  have ha := add_order_counters { o with price := new_price, quantity := new_quantity }
    (cancel_order id b).1
  refine ⟨trivial, ?_, ?_⟩ <;> omega


theorem C10_price_amend_bumps_counters_witness :
    lookupFind 7 c10wBook.order_lookup = some ⟨true, 100⟩ ∧
    findInSide 7 (100 : Int) (if (true : Bool) then c10wBook.bids else c10wBook.asks) =
      some ⟨7, true, 100, 6, 0⟩ ∧
    (101 : Int) ≠ 100 ∧
    ((amend_order 7 101 6 c10wBook).2.2 = true ∧
     (amend_order 7 101 6 c10wBook).1.total_orders_added =
       c10wBook.total_orders_added + 1 ∧
     (amend_order 7 101 6 c10wBook).1.total_orders_cancelled =
       c10wBook.total_orders_cancelled + 1) :=
  ⟨by decide, by decide, by decide,
   C10_price_amend_bumps_counters c10wBook 7 101 6 ⟨true, 100⟩ ⟨7, true, 100, 6, 0⟩
     (by decide) (by decide) (by decide)⟩

/-! ## Queue decomposition lemmas -/

theorem findById_append_skip (id : Nat) (os1 os : List Order)
    (h : ∀ x ∈ os1, x.order_id ≠ id) :
    findById id (os1 ++ os) = findById id os := by
  induction os1 with
  | nil => rfl
  | cons x xs ih =>
    have hx : x.order_id ≠ id := h x (List.mem_cons_self _ _)
    simp only [List.cons_append, findById, if_neg hx]
    exact ih (fun y hy => h y (List.mem_cons_of_mem _ hy))

theorem eraseFirstById_append_skip (id : Nat) (os1 os : List Order)
    (h : ∀ x ∈ os1, x.order_id ≠ id) :
    eraseFirstById id (os1 ++ os) = os1 ++ eraseFirstById id os := by
  induction os1 with
  | nil => rfl
  | cons x xs ih =>
    have hx : x.order_id ≠ id := h x (List.mem_cons_self _ _)
    simp only [List.cons_append, eraseFirstById, if_neg hx, List.append_eq]
    rw [ih (fun y hy => h y (List.mem_cons_of_mem _ hy))]

theorem setQtyById_append_skip (id : Nat) (q : Nat) (os1 os : List Order)
    (h : ∀ x ∈ os1, x.order_id ≠ id) :
    setQtyById id q (os1 ++ os) = os1 ++ setQtyById id q os := by
  induction os1 with
  | nil => rfl
  | cons x xs ih =>
    have hx : x.order_id ≠ id := h x (List.mem_cons_self _ _)
    simp only [List.cons_append, setQtyById, if_neg hx, List.append_eq]
    rw [ih (fun y hy => h y (List.mem_cons_of_mem _ hy))]

theorem findById_at (id : Nat) (os1 os2 : List Order) (o : Order)
    (hid : o.order_id = id) (h : ∀ x ∈ os1, x.order_id ≠ id) :
    findById id (os1 ++ o :: os2) = some o := by
  rw [findById_append_skip id os1 _ h]
  simp [findById, hid]

theorem eraseFirstById_at (id : Nat) (os1 os2 : List Order) (o : Order)
    (hid : o.order_id = id) (h : ∀ x ∈ os1, x.order_id ≠ id) :
    eraseFirstById id (os1 ++ o :: os2) = os1 ++ os2 := by
  rw [eraseFirstById_append_skip id os1 _ h]
  simp [eraseFirstById, hid]

theorem setQtyById_at (id : Nat) (q : Nat) (os1 os2 : List Order) (o : Order)
    (hid : o.order_id = id) (h : ∀ x ∈ os1, x.order_id ≠ id) :
    setQtyById id q (os1 ++ o :: os2) = os1 ++ { o with quantity := q } :: os2 := by
  rw [setQtyById_append_skip id q os1 _ h]
  simp [setQtyById, hid]

theorem removeOrderFromSide_spec (id : Nat) (price : Int)
    (pre post : List PriceLevelData) (lvl : PriceLevelData)
    (os1 os2 : List Order) (o : Order)
    (hp : lvl.price = price) (hpre : ∀ l ∈ pre, l.price ≠ price)
    (ho : lvl.orders = os1 ++ o :: os2) (hid : o.order_id = id)
    (hos1 : ∀ x ∈ os1, x.order_id ≠ id) :
    removeOrderFromSide id price (pre ++ lvl :: post) =
      if os1 ++ os2 = [] then pre ++ post
      else pre ++ ({ lvl with orders := os1 ++ os2,
                              total_quantity := lvl.total_quantity - o.quantity } :: post) := by
  induction pre with
  | nil =>
    have hf : findById id lvl.orders = some o := by
      rw [ho]; exact findById_at id os1 os2 o hid hos1
    have he : eraseFirstById id lvl.orders = os1 ++ os2 := by
      rw [ho]; exact eraseFirstById_at id os1 os2 o hid hos1
    simp only [List.nil_append, removeOrderFromSide, hp, if_true, eq_self_iff_true, hf, he]
  | cons l pre ih =>
    have hl : l.price ≠ price := hpre l (List.mem_cons_self _ _)
    simp only [List.cons_append, removeOrderFromSide, if_neg hl, List.append_eq]
    rw [ih (fun x hx => hpre x (List.mem_cons_of_mem _ hx))]
    by_cases h2 : os1 ++ os2 = [] <;> simp [h2]

/-- C5: cancel of an unknown id returns false and changes nothing; cancel of
a live order removes exactly that order from its level's queue, subtracts its
remaining quantity from the level total, erases the level if its queue
emptied, removes the locator entry, increments `total_orders_cancelled`,
returns true, and triggers no matching (all other state is untouched). -/
theorem C5_cancel_semantics (b : Book) (id : Nat) (loc : OrderLocation)
    (pre post : List PriceLevelData) (lvl : PriceLevelData)
    (os1 os2 : List Order) (o : Order) :
    (lookupFind id b.order_lookup = none → cancel_order id b = (b, false)) ∧
    (lookupFind id b.order_lookup = some loc →
     (if loc.is_bid then b.bids else b.asks) = pre ++ lvl :: post →
     lvl.price = loc.price →
     (∀ l ∈ pre, l.price ≠ loc.price) →
     lvl.orders = os1 ++ o :: os2 →
     o.order_id = id →
     (∀ x ∈ os1, x.order_id ≠ id) →
     ((cancel_order id b).2 = true ∧
      (if loc.is_bid then (cancel_order id b).1.bids else (cancel_order id b).1.asks) =
        (if os1 ++ os2 = [] then pre ++ post
         else pre ++ ({ lvl with orders := os1 ++ os2,
                                 total_quantity := lvl.total_quantity - o.quantity } :: post)) ∧
      (if loc.is_bid then (cancel_order id b).1.asks = b.asks
       else (cancel_order id b).1.bids = b.bids) ∧
      (cancel_order id b).1.order_lookup = eraseKey id b.order_lookup ∧
      (cancel_order id b).1.total_orders_cancelled = b.total_orders_cancelled + 1 ∧
      (cancel_order id b).1.total_orders_added = b.total_orders_added ∧
      (cancel_order id b).1.total_orders_matched = b.total_orders_matched)) := by
  constructor
  · intro hn
    exact cancel_order_notfound id b hn
  · intro hlk hside hp hpre ho hid hos1
    by_cases hbid : loc.is_bid = true
    · rw [if_pos hbid] at hside
      simp only [cancel_order, hlk, hbid, if_true]
      rw [hside]
      rw [removeOrderFromSide_spec id loc.price pre post lvl os1 os2 o hp hpre ho hid hos1]
      simp
    · rw [if_neg hbid] at hside
      simp only [cancel_order, hlk, hbid, Bool.false_eq_true, if_false]
      rw [hside]
      rw [removeOrderFromSide_spec id loc.price pre post lvl os1 os2 o hp hpre ho hid hos1]
      simp


theorem C5_cancel_semantics_witness :
    (lookupFind 99 c5wBook.order_lookup = none → cancel_order 99 c5wBook = (c5wBook, false)) ∧
    lookupFind 21 c5wBook.order_lookup = some ⟨true, 100⟩ ∧
    ((cancel_order 21 c5wBook).2 = true ∧
     (cancel_order 21 c5wBook).1.bids =
       [{ price := 100, orders := [⟨22, true, 100, 5, 0⟩], total_quantity := 5 }] ∧
     (cancel_order 21 c5wBook).1.total_orders_cancelled =
       c5wBook.total_orders_cancelled + 1) := by
  refine ⟨((C5_cancel_semantics c5wBook 99 ⟨true, 100⟩ [] []
    { price := 100, orders := [⟨21, true, 100, 9, 0⟩, ⟨22, true, 100, 5, 0⟩],
      total_quantity := 14 } [] [] ⟨21, true, 100, 9, 0⟩).1), by decide, ?_⟩
  have h := (C5_cancel_semantics c5wBook 21 ⟨true, 100⟩ [] []
    { price := 100, orders := [⟨21, true, 100, 9, 0⟩, ⟨22, true, 100, 5, 0⟩],
      total_quantity := 14 } [] [⟨22, true, 100, 5, 0⟩] ⟨21, true, 100, 9, 0⟩).2
    (by decide) (by decide) (by decide) (by decide) (by decide) (by decide) (by decide)
  refine ⟨h.1, ?_, h.2.2.2.2.1⟩
  have h2 := h.2.1
  simpa using h2

theorem lookupFind_insert (id : Nat) (loc : OrderLocation)
    (lk : List (Nat × OrderLocation)) :
    lookupFind id (lookupInsert id loc lk) = some loc := by
  simp [lookupFind, lookupInsert]

theorem match_orders_no_trades {b : Book} (h : (match_orders b).2 = []) :
    (match_orders b).1 = b :=
  matchLoop_no_trades h

theorem removeBid_insertBid (o : Order) (ls : List PriceLevelData)
    (hfresh : ∀ l ∈ ls, ∀ x ∈ l.orders, x.order_id ≠ o.order_id)
    (hne : NoEmptySide ls) :
    removeOrderFromSide o.order_id o.price (insertBid o ls) = ls := by
  induction ls with
  | nil => simp [insertBid, removeOrderFromSide, findById, eraseFirstById]
  | cons l ls ih =>
    by_cases h1 : o.price > l.price
    · simp only [insertBid, if_pos h1]
      simp [removeOrderFromSide, findById, eraseFirstById]
    · by_cases h2 : o.price = l.price
      · simp only [insertBid, if_neg h1, if_pos h2]
        rcases l with ⟨lp, lo, lt⟩
        have hlp : lp = o.price := h2.symm
        subst hlp
        have hfr : ∀ x ∈ lo, x.order_id ≠ o.order_id :=
          hfresh ⟨o.price, lo, lt⟩ (List.mem_cons_self _ _)
        have hlo : lo ≠ [] := hne ⟨o.price, lo, lt⟩ (List.mem_cons_self _ _)
        have hf : findById o.order_id (lo ++ [o]) = some o :=
          findById_at o.order_id lo [] o rfl hfr
        have he : eraseFirstById o.order_id (lo ++ [o]) = lo := by
          have := eraseFirstById_at o.order_id lo [] o rfl hfr
          simpa using this
        simp only [removeOrderFromSide, if_true, eq_self_iff_true, hf, he, if_neg hlo]
        simp [Nat.add_sub_cancel]
      · have h3 : l.price ≠ o.price := fun he => h2 he.symm
        simp only [insertBid, if_neg h1, if_neg h2]
        simp only [removeOrderFromSide, if_neg h3]
        rw [ih (fun x hx => hfresh x (List.mem_cons_of_mem _ hx))
          (fun x hx => hne x (List.mem_cons_of_mem _ hx))]

theorem removeAsk_insertAsk (o : Order) (ls : List PriceLevelData)
    (hfresh : ∀ l ∈ ls, ∀ x ∈ l.orders, x.order_id ≠ o.order_id)
    (hne : NoEmptySide ls) :
    removeOrderFromSide o.order_id o.price (insertAsk o ls) = ls := by
  induction ls with
  | nil => simp [insertAsk, removeOrderFromSide, findById, eraseFirstById]
  | cons l ls ih =>
    by_cases h1 : o.price < l.price
    · simp only [insertAsk, if_pos h1]
      simp [removeOrderFromSide, findById, eraseFirstById]
    · by_cases h2 : o.price = l.price
      · simp only [insertAsk, if_neg h1, if_pos h2]
        rcases l with ⟨lp, lo, lt⟩
        have hlp : lp = o.price := h2.symm
        subst hlp
        have hfr : ∀ x ∈ lo, x.order_id ≠ o.order_id :=
          hfresh ⟨o.price, lo, lt⟩ (List.mem_cons_self _ _)
        have hlo : lo ≠ [] := hne ⟨o.price, lo, lt⟩ (List.mem_cons_self _ _)
        have hf : findById o.order_id (lo ++ [o]) = some o :=
          findById_at o.order_id lo [] o rfl hfr
        have he : eraseFirstById o.order_id (lo ++ [o]) = lo := by
          have := eraseFirstById_at o.order_id lo [] o rfl hfr
          simpa using this
        simp only [removeOrderFromSide, if_true, eq_self_iff_true, hf, he, if_neg hlo]
        simp [Nat.add_sub_cancel]
      · have h3 : l.price ≠ o.price := fun he => h2 he.symm
        simp only [insertAsk, if_neg h1, if_neg h2]
        simp only [removeOrderFromSide, if_neg h3]
        rw [ih (fun x hx => hfresh x (List.mem_cons_of_mem _ hx))
          (fun x hx => hne x (List.mem_cons_of_mem _ hx))]

/-- C6: adding a fresh order whose arrival emits no trade and then cancelling
it returns true, restores the book to the same snapshot at every depth, and
leaves `total_orders_added` and `total_orders_cancelled` each exactly one
higher. -/
theorem C6_add_then_cancel_roundtrip (b : Book) (a : Order)
    (hfb : ∀ l ∈ b.bids, ∀ x ∈ l.orders, x.order_id ≠ a.order_id)
    (hfa : ∀ l ∈ b.asks, ∀ x ∈ l.orders, x.order_id ≠ a.order_id)
    (hneb : NoEmptySide b.bids) (hnea : NoEmptySide b.asks)
    (hnotrade : (add_order a b).2 = []) :
    (cancel_order a.order_id (add_order a b).1).2 = true ∧
    (∀ depth, get_snapshot depth (cancel_order a.order_id (add_order a b).1).1 =
      get_snapshot depth b) ∧
    (cancel_order a.order_id (add_order a b).1).1.total_orders_added =
      b.total_orders_added + 1 ∧
    (cancel_order a.order_id (add_order a b).1).1.total_orders_cancelled =
      b.total_orders_cancelled + 1 := by
  by_cases hb : a.is_buy = true
  · simp only [add_order, hb, if_true] at hnotrade ⊢
    rw [match_orders_no_trades hnotrade]
    simp only [cancel_order, lookupFind_insert]
    rw [removeBid_insertBid a b.bids hfb hneb]
    refine ⟨by simp, ?_, by simp, by simp⟩
    intro depth
    simp [get_snapshot]
  · simp only [add_order, hb, Bool.false_eq_true, if_false] at hnotrade ⊢
    rw [match_orders_no_trades hnotrade]
    simp only [cancel_order, lookupFind_insert]
    rw [removeAsk_insertAsk a b.asks hfa hnea]
    refine ⟨by simp, ?_, by simp, by simp⟩
    intro depth
    simp [get_snapshot]


theorem C6_add_then_cancel_roundtrip_witness :
    ((∀ l ∈ c6wBook.bids, ∀ x ∈ l.orders, x.order_id ≠ 32) ∧
     (∀ l ∈ c6wBook.asks, ∀ x ∈ l.orders, x.order_id ≠ 32) ∧
     NoEmptySide c6wBook.bids ∧ NoEmptySide c6wBook.asks ∧
     (add_order ⟨32, false, 105, 5, 0⟩ c6wBook).2 = []) ∧
    ((cancel_order 32 (add_order ⟨32, false, 105, 5, 0⟩ c6wBook).1).2 = true ∧
     (∀ depth, get_snapshot depth
        (cancel_order 32 (add_order ⟨32, false, 105, 5, 0⟩ c6wBook).1).1 =
      get_snapshot depth c6wBook) ∧
     (cancel_order 32 (add_order ⟨32, false, 105, 5, 0⟩ c6wBook).1).1.total_orders_added =
      c6wBook.total_orders_added + 1 ∧
     (cancel_order 32 (add_order ⟨32, false, 105, 5, 0⟩ c6wBook).1).1.total_orders_cancelled =
      c6wBook.total_orders_cancelled + 1) :=
  ⟨⟨by decide, by decide, by decide, by decide, by decide⟩,
   C6_add_then_cancel_roundtrip c6wBook ⟨32, false, 105, 5, 0⟩
     (by decide) (by decide) (by decide) (by decide) (by decide)⟩

theorem findInSide_at (id : Nat) (price : Int) (pre post : List PriceLevelData)
    (lvl : PriceLevelData) (hp : lvl.price = price)
    (hpre : ∀ l ∈ pre, l.price ≠ price) :
    findInSide id price (pre ++ lvl :: post) = findById id lvl.orders := by
  induction pre with
  | nil => simp [findInSide, hp]
  | cons l pre ih =>
    have hl : l.price ≠ price := hpre l (List.mem_cons_self _ _)
    simp only [List.cons_append, findInSide, if_neg hl]
    exact ih (fun x hx => hpre x (List.mem_cons_of_mem _ hx))

theorem matchStep_none_of_uncrossed {b : Book} (hu : Uncrossed b) :
    matchStep b = none := by
  unfold matchStep
  rcases hbb : b.bids with _ | ⟨bl, brest⟩
  · rfl
  rcases hba : b.asks with _ | ⟨al, arest⟩
  · rfl
  have hlt := hu bl.price
    (by rw [hbb]; exact List.mem_map_of_mem _ (List.mem_cons_self _ _)) al.price
    (by rw [hba]; exact List.mem_map_of_mem _ (List.mem_cons_self _ _))
  simp [hlt]

theorem match_orders_of_none {b : Book} (h : matchStep b = none) :
    match_orders b = (b, []) :=
  matchLoop_of_none h _

theorem uncrossed_congr (b' b : Book)
    (hb : pricesOf b'.bids = pricesOf b.bids) (ha : pricesOf b'.asks = pricesOf b.asks)
    (hu : Uncrossed b) : Uncrossed b' := by
  intro pb hpb pa hpa
  rw [hb] at hpb
  rw [ha] at hpa
  exact hu pb hpb pa hpa

theorem updateQtyInSide_spec (id : Nat) (price : Int) (oldq newq : Nat)
    (pre post : List PriceLevelData) (lvl : PriceLevelData)
    (os1 os2 : List Order) (o : Order)
    (hp : lvl.price = price) (hpre : ∀ l ∈ pre, l.price ≠ price)
    (ho : lvl.orders = os1 ++ o :: os2) (hid : o.order_id = id)
    (hos1 : ∀ x ∈ os1, x.order_id ≠ id) :
    updateQtyInSide id price oldq newq (pre ++ lvl :: post) =
      pre ++ ({ lvl with orders := os1 ++ { o with quantity := newq } :: os2,
                         total_quantity := lvl.total_quantity - oldq + newq } :: post) := by
  induction pre with
  | nil =>
    have hs : setQtyById id newq lvl.orders = os1 ++ { o with quantity := newq } :: os2 := by
      rw [ho]; exact setQtyById_at id newq os1 os2 o hid hos1
    simp only [List.nil_append, updateQtyInSide, hp, if_true, eq_self_iff_true, hs]
  | cons l pre ih =>
    have hl : l.price ≠ price := hpre l (List.mem_cons_self _ _)
    simp only [List.cons_append, updateQtyInSide, if_neg hl, List.append_eq]
    rw [ih (fun x hx => hpre x (List.mem_cons_of_mem _ hx))]

/-- C7: amending a live order with its current price keeps the order at its
exact position in its level's FIFO queue regardless of quantity direction,
emits no trade, returns true, and changes nothing except that level's
`total_quantity`, which becomes `total - old + new` (as an integer,
`total + (new - old)`); the level's price sequence on both sides, the other
side, the locator and all counters are untouched. -/
theorem C7_same_price_amend_preserves_priority (b : Book) (id : Nat)
    (new_quantity : Nat) (loc : OrderLocation) (pre post : List PriceLevelData)
    (lvl : PriceLevelData) (os1 os2 : List Order) (o : Order)
    (hlk : lookupFind id b.order_lookup = some loc)
    (hside : (if loc.is_bid then b.bids else b.asks) = pre ++ lvl :: post)
    (hp : lvl.price = loc.price)
    (hpre : ∀ l ∈ pre, l.price ≠ loc.price)
    (ho : lvl.orders = os1 ++ o :: os2)
    (hid : o.order_id = id)
    (hos1 : ∀ x ∈ os1, x.order_id ≠ id)
    (htot : lvl.total_quantity = sumQ lvl.orders)
    (hu : Uncrossed b) :
    (amend_order id o.price new_quantity b).2.2 = true ∧
    (amend_order id o.price new_quantity b).2.1 = [] ∧
    (if loc.is_bid then (amend_order id o.price new_quantity b).1.bids
     else (amend_order id o.price new_quantity b).1.asks) =
      pre ++ ({ lvl with orders := os1 ++ { o with quantity := new_quantity } :: os2,
                         total_quantity :=
                           lvl.total_quantity - o.quantity + new_quantity } :: post) ∧
    (if loc.is_bid then (amend_order id o.price new_quantity b).1.asks = b.asks
     else (amend_order id o.price new_quantity b).1.bids = b.bids) ∧
    (amend_order id o.price new_quantity b).1.order_lookup = b.order_lookup ∧
    (amend_order id o.price new_quantity b).1.total_orders_added =
      b.total_orders_added ∧
    (amend_order id o.price new_quantity b).1.total_orders_cancelled =
      b.total_orders_cancelled ∧
    (amend_order id o.price new_quantity b).1.total_orders_matched =
      b.total_orders_matched ∧
    ((lvl.total_quantity - o.quantity + new_quantity : Nat) : Int) =
      (lvl.total_quantity : Int) + (new_quantity : Int) - (o.quantity : Int) := by
  have hle : o.quantity ≤ lvl.total_quantity := by
    rw [htot, ho, sumQ_append]
    simp [sumQ]
    omega
  have hfind : findInSide id loc.price (if loc.is_bid then b.bids else b.asks) = some o := by
    rw [hside, findInSide_at id loc.price pre post lvl hp hpre, ho]
    exact findById_at id os1 os2 o hid hos1
  have hcond : ¬(o.price ≠ o.price) := fun h => h rfl
  have hintq : ((lvl.total_quantity - o.quantity + new_quantity : Nat) : Int) =
      (lvl.total_quantity : Int) + (new_quantity : Int) - (o.quantity : Int) := by
    omega
  by_cases hq : new_quantity ≠ o.quantity
  · simp only [amend_order, hlk, hfind, if_neg hcond, if_pos hq]
    by_cases hbid : loc.is_bid = true
    · rw [if_pos hbid] at hside
      simp only [hbid, if_true]
      have hups := updateQtyInSide_spec id loc.price o.quantity new_quantity pre post lvl
        os1 os2 o hp hpre ho hid hos1
      have hprices : pricesOf (updateQtyInSide id loc.price o.quantity new_quantity b.bids) =
          pricesOf b.bids := updateQtyInSide_prices _ _ _ _ _
      have hms : matchStep { b with
          bids := updateQtyInSide id loc.price o.quantity new_quantity b.bids } = none :=
        matchStep_none_of_uncrossed (uncrossed_congr _ b hprices rfl hu)
      rw [match_orders_of_none hms]
      simp only [hbid, if_true]
      rw [hside, hups]
      refine ⟨?_, ?_, ?_, ?_, ?_, ?_, ?_, ?_, hintq⟩ <;> trivial
    · rw [if_neg hbid] at hside
      simp only [hbid, Bool.false_eq_true, if_false]
      have hups := updateQtyInSide_spec id loc.price o.quantity new_quantity pre post lvl
        os1 os2 o hp hpre ho hid hos1
      have hprices : pricesOf (updateQtyInSide id loc.price o.quantity new_quantity b.asks) =
          pricesOf b.asks := updateQtyInSide_prices _ _ _ _ _
      have hms : matchStep { b with
          asks := updateQtyInSide id loc.price o.quantity new_quantity b.asks } = none :=
        matchStep_none_of_uncrossed (uncrossed_congr _ b rfl hprices hu)
      rw [match_orders_of_none hms]
      simp only [hbid, Bool.false_eq_true, if_false]
      rw [hside, hups]
      refine ⟨?_, ?_, ?_, ?_, ?_, ?_, ?_, ?_, hintq⟩ <;> trivial
  · simp only [amend_order, hlk, hfind, if_neg hcond, if_neg hq]
    have hq' : new_quantity = o.quantity := not_ne_iff.mp hq
    subst hq'
    have hcancel : lvl.total_quantity - o.quantity + o.quantity = lvl.total_quantity := by
      omega
    have hlvl : ({ lvl with orders := os1 ++ { o with quantity := o.quantity } :: os2,
                            total_quantity :=
                              lvl.total_quantity - o.quantity + o.quantity }) = lvl := by
      rw [hcancel]
      have : os1 ++ { o with quantity := o.quantity } :: os2 = lvl.orders := by
        rw [ho]
      rw [this]
    rw [hlvl]
    by_cases hbid : loc.is_bid = true
    · rw [if_pos hbid] at hside
      simp only [hbid, if_true]
      refine ⟨?_, ?_, hside, ?_, ?_, ?_, ?_, ?_, hintq⟩ <;> trivial
    · rw [if_neg hbid] at hside
      simp only [hbid, Bool.false_eq_true, if_false]
      refine ⟨?_, ?_, hside, ?_, ?_, ?_, ?_, ?_, hintq⟩ <;> trivial


theorem C7_same_price_amend_preserves_priority_witness :
    (lookupFind 41 c7wBook.order_lookup = some ⟨true, 100⟩ ∧
     c7wBook.bids = [] ++ { price := 100,
                            orders := [⟨41, true, 100, 3, 0⟩, ⟨42, true, 100, 5, 0⟩],
                            total_quantity := 8 } :: [] ∧
     Uncrossed c7wBook) ∧
    ((amend_order 41 100 10 c7wBook).2.2 = true ∧
     (amend_order 41 100 10 c7wBook).2.1 = [] ∧
     (amend_order 41 100 10 c7wBook).1.bids =
       [] ++ ({ price := 100,
                orders := [⟨41, true, 100, 10, 0⟩, ⟨42, true, 100, 5, 0⟩],
                total_quantity := 15 } : PriceLevelData) :: [] ∧
     (amend_order 41 100 10 c7wBook).1.asks = c7wBook.asks ∧
     (amend_order 41 100 10 c7wBook).1.order_lookup = c7wBook.order_lookup ∧
     (amend_order 41 100 10 c7wBook).1.total_orders_matched =
       c7wBook.total_orders_matched) := by
  have h := C7_same_price_amend_preserves_priority c7wBook 41 10 ⟨true, 100⟩ [] []
    { price := 100, orders := [⟨41, true, 100, 3, 0⟩, ⟨42, true, 100, 5, 0⟩],
      total_quantity := 8 } [] [⟨42, true, 100, 5, 0⟩] ⟨41, true, 100, 3, 0⟩
    (by decide) (by decide) (by decide) (by decide) (by decide) (by decide) (by decide)
    (by decide) (by decide)
  refine ⟨⟨by decide, by decide, by decide⟩, h.1, h.2.1, ?_, ?_, h.2.2.2.2.1, ?_⟩
  · have h3 := h.2.2.1
    simpa using h3
  · have h4 := h.2.2.2.1
    simpa using h4
  · exact h.2.2.2.2.2.2.2.1

/-! ## C2 support: aggressor trade emission order -/

theorem sideOrders_stepSide_consumed (al : PriceLevelData) (arest : List PriceLevelData)
    (sell : Order) (stail : List Order) (qty : Nat)
    (h : sell.quantity - qty = 0) :
    sideOrders (stepSide al arest sell stail qty) = stail ++ sideOrders arest := by
  unfold stepSide
  rw [if_pos h]
  by_cases h2 : stail = []
  · rw [if_pos h2, h2]
    simp
  · rw [if_neg h2]
    simp [sideOrders]

theorem insertBid_front (o : Order) (ls : List PriceLevelData)
    (h : ∀ l ∈ ls, l.price < o.price) :
    insertBid o ls =
      { price := o.price, orders := [o], total_quantity := o.quantity } :: ls := by
  cases ls with
  | nil => rfl
  | cons l ls =>
    have hl := h l (List.mem_cons_self _ _)
    simp only [insertBid, if_pos (by omega : o.price > l.price)]

theorem insertAsk_front (o : Order) (ls : List PriceLevelData)
    (h : ∀ l ∈ ls, o.price < l.price) :
    insertAsk o ls =
      { price := o.price, orders := [o], total_quantity := o.quantity } :: ls := by
  cases ls with
  | nil => rfl
  | cons l ls =>
    have hl := h l (List.mem_cons_self _ _)
    simp only [insertAsk, if_pos hl]

theorem matchLoop_buy_aggr : ∀ (fuel : Nat) (b : Book) (lvl : PriceLevelData)
    (rest : List PriceLevelData) (a : Order),
    b.bids = lvl :: rest →
    lvl.orders = [a] →
    (∀ l ∈ rest, ∀ pa ∈ pricesOf b.asks, l.price < pa) →
    (∀ la ∈ b.asks, la.orders ≠ []) →
    (∀ t ∈ (matchLoop fuel b).2, t.buy_order_id = a.order_id) ∧
    (matchLoop fuel b).2.map (fun t => t.sell_order_id) =
      ((sideOrders b.asks).map (fun x => x.order_id)).take (matchLoop fuel b).2.length := by
  intro fuel
  induction fuel with
  | zero => intro b lvl rest a _ _ _ _; simp [matchLoop]
  | succ n ih =>
    intro b lvl rest a hbb hlo hrest hne
    rcases hms : matchStep b with _ | ⟨b', t⟩
    · simp [matchLoop, hms]
    · obtain ⟨bl, brest, al, arest, buy, btail, sell, stail, hbb', hba', hbo', hao',
        hpr, hb', ht⟩ := matchStep_some_elim hms
      rw [hbb] at hbb'
      injection hbb' with h1 h2
      subst h1
      subst h2
      rw [hlo] at hbo'
      injection hbo' with h3 h4
      subst h3
      subst h4
      have hmin1 : min a.quantity sell.quantity ≤ a.quantity := Nat.min_le_left _ _
      have hmin2 : min a.quantity sell.quantity ≤ sell.quantity := Nat.min_le_right _ _
      have hmin3 : min a.quantity sell.quantity = a.quantity ∨
          min a.quantity sell.quantity = sell.quantity := by
        rcases Nat.le_total a.quantity sell.quantity with h' | h'
        · exact Or.inl (Nat.min_eq_left h')
        · exact Or.inr (Nat.min_eq_right h')
      simp only [matchLoop, hms]
      by_cases ha0 : a.quantity - min a.quantity sell.quantity = 0
      · -- the aggressor is fully consumed: the loop stops after this trade
        have hbids' : stepSide lvl rest a [] (min a.quantity sell.quantity) = rest := by
          unfold stepSide
          rw [if_pos ha0, if_pos rfl]
        have hu' : Uncrossed b' := by
          intro pb hpb pa hpa
          rw [hb'] at hpb hpa
          simp only [] at hpb hpa
          rw [hbids'] at hpb
          obtain ⟨l, hl, he⟩ := List.mem_map.mp hpb
          rw [← he]
          rcases stepSide_prices al arest sell stail (min a.quantity sell.quantity)
            with hps | hps
          · rw [hps] at hpa
            exact hrest l hl pa (by rw [hba']; exact hpa)
          · rw [hps] at hpa
            refine hrest l hl pa ?_
            rw [hba']
            unfold pricesOf at hpa ⊢
            rw [List.map_cons]
            exact List.mem_cons_of_mem _ hpa
        have hnone : matchStep b' = none := matchStep_none_of_uncrossed hu'
        rw [matchLoop_of_none hnone n]
        constructor
        · intro t' ht'
          simp only [] at ht'
          rcases List.mem_cons.mp ht' with he | he
          · rw [he, ht]
          · simp at he
        · rw [hba', ht]
          simp only [sideOrders, hao']
          simp [sideOrders]
      · -- the aggressor survives; the resting head was fully consumed
        have hs0 : sell.quantity - min a.quantity sell.quantity = 0 := by omega
        have hbids' : stepSide lvl rest a [] (min a.quantity sell.quantity) =
            { lvl with
              orders := [{ a with quantity := a.quantity - min a.quantity sell.quantity }],
              total_quantity := lvl.total_quantity - min a.quantity sell.quantity } :: rest := by
          unfold stepSide
          rw [if_neg ha0]
        have hasks' : sideOrders (stepSide al arest sell stail (min a.quantity sell.quantity)) =
            stail ++ sideOrders arest :=
          sideOrders_stepSide_consumed al arest sell stail _ hs0
        have hne' : ∀ la ∈ stepSide al arest sell stail (min a.quantity sell.quantity),
            la.orders ≠ [] := by
          apply stepSide_noempty
          intro l hl
          exact hne l (by rw [hba']; exact List.mem_cons_of_mem _ hl)
        have hrest' : ∀ l ∈ rest,
            ∀ pa ∈ pricesOf (stepSide al arest sell stail (min a.quantity sell.quantity)),
            l.price < pa := by
          intro l hl pa hpa
          rcases stepSide_prices al arest sell stail (min a.quantity sell.quantity)
            with hps | hps
          · rw [hps] at hpa
            exact hrest l hl pa (by rw [hba']; exact hpa)
          · rw [hps] at hpa
            refine hrest l hl pa ?_
            rw [hba']
            unfold pricesOf at hpa ⊢
            rw [List.map_cons]
            exact List.mem_cons_of_mem _ hpa
        have hih := ih b'
          { lvl with
            orders := [{ a with quantity := a.quantity - min a.quantity sell.quantity }],
            total_quantity := lvl.total_quantity - min a.quantity sell.quantity }
          rest { a with quantity := a.quantity - min a.quantity sell.quantity }
          (by rw [hb']; exact hbids') rfl
          (by rw [hb']; exact hrest') (by rw [hb']; exact hne')
        constructor
        · intro t' ht'
          rcases List.mem_cons.mp ht' with he | he
          · rw [he, ht]
          · exact hih.1 t' he
        · have hasks2 : sideOrders b'.asks = stail ++ sideOrders arest := by
            rw [hb']
            exact hasks'
          have hsell := hih.2
          rw [hasks2] at hsell
          rw [hba', ht]
          simp only [sideOrders, hao', List.map_cons, List.length_cons, List.cons_append,
            List.map_append, List.take_succ_cons]
          rw [← List.map_append]
          exact congrArg _ hsell

theorem matchLoop_sell_aggr : ∀ (fuel : Nat) (b : Book) (lvl : PriceLevelData)
    (rest : List PriceLevelData) (a : Order),
    b.asks = lvl :: rest →
    lvl.orders = [a] →
    (∀ l ∈ rest, ∀ pb ∈ pricesOf b.bids, pb < l.price) →
    (∀ lb ∈ b.bids, lb.orders ≠ []) →
    (∀ t ∈ (matchLoop fuel b).2, t.sell_order_id = a.order_id) ∧
    (matchLoop fuel b).2.map (fun t => t.buy_order_id) =
      ((sideOrders b.bids).map (fun x => x.order_id)).take (matchLoop fuel b).2.length := by
  intro fuel
  induction fuel with
  | zero => intro b lvl rest a _ _ _ _; simp [matchLoop]
  | succ n ih =>
    intro b lvl rest a hba hlo hrest hne
    rcases hms : matchStep b with _ | ⟨b', t⟩
    · simp [matchLoop, hms]
    · obtain ⟨bl, brest, al, arest, buy, btail, sell, stail, hbb', hba', hbo', hao',
        hpr, hb', ht⟩ := matchStep_some_elim hms
      rw [hba] at hba'
      injection hba' with h1 h2
      subst h1
      subst h2
      rw [hlo] at hao'
      injection hao' with h3 h4
      subst h3
      subst h4
      have hmin1 : min buy.quantity a.quantity ≤ buy.quantity := Nat.min_le_left _ _
      have hmin2 : min buy.quantity a.quantity ≤ a.quantity := Nat.min_le_right _ _
      have hmin3 : min buy.quantity a.quantity = buy.quantity ∨
          min buy.quantity a.quantity = a.quantity := by
        rcases Nat.le_total buy.quantity a.quantity with h' | h'
        · exact Or.inl (Nat.min_eq_left h')
        · exact Or.inr (Nat.min_eq_right h')
      simp only [matchLoop, hms]
      by_cases ha0 : a.quantity - min buy.quantity a.quantity = 0
      · -- the aggressor is fully consumed: the loop stops after this trade
        have hasks' : stepSide lvl rest a [] (min buy.quantity a.quantity) = rest := by
          unfold stepSide
          rw [if_pos ha0, if_pos rfl]
        have hu' : Uncrossed b' := by
          intro pb hpb pa hpa
          rw [hb'] at hpb hpa
          simp only [] at hpb hpa
          rw [hasks'] at hpa
          obtain ⟨l, hl, he⟩ := List.mem_map.mp hpa
          rw [← he]
          rcases stepSide_prices bl brest buy btail (min buy.quantity a.quantity)
            with hps | hps
          · rw [hps] at hpb
            exact hrest l hl pb (by rw [hbb']; exact hpb)
          · rw [hps] at hpb
            refine hrest l hl pb ?_
            rw [hbb']
            unfold pricesOf at hpb ⊢
            rw [List.map_cons]
            exact List.mem_cons_of_mem _ hpb
        have hnone : matchStep b' = none := matchStep_none_of_uncrossed hu'
        rw [matchLoop_of_none hnone n]
        constructor
        · intro t' ht'
          simp only [] at ht'
          rcases List.mem_cons.mp ht' with he | he
          · rw [he, ht]
          · simp at he
        · rw [hbb', ht]
          simp only [sideOrders, hbo']
          simp [sideOrders]
      · -- the aggressor survives; the resting head was fully consumed
        have hs0 : buy.quantity - min buy.quantity a.quantity = 0 := by omega
        have hasks' : stepSide lvl rest a [] (min buy.quantity a.quantity) =
            { lvl with
              orders := [{ a with quantity := a.quantity - min buy.quantity a.quantity }],
              total_quantity := lvl.total_quantity - min buy.quantity a.quantity } :: rest := by
          unfold stepSide
          rw [if_neg ha0]
        have hbids' : sideOrders (stepSide bl brest buy btail (min buy.quantity a.quantity)) =
            btail ++ sideOrders brest :=
          sideOrders_stepSide_consumed bl brest buy btail _ hs0
        have hne' : ∀ lb ∈ stepSide bl brest buy btail (min buy.quantity a.quantity),
            lb.orders ≠ [] := by
          apply stepSide_noempty
          intro l hl
          exact hne l (by rw [hbb']; exact List.mem_cons_of_mem _ hl)
        have hrest' : ∀ l ∈ rest,
            ∀ pb ∈ pricesOf (stepSide bl brest buy btail (min buy.quantity a.quantity)),
            pb < l.price := by
          intro l hl pb hpb
          rcases stepSide_prices bl brest buy btail (min buy.quantity a.quantity)
            with hps | hps
          · rw [hps] at hpb
            exact hrest l hl pb (by rw [hbb']; exact hpb)
          · rw [hps] at hpb
            refine hrest l hl pb ?_
            rw [hbb']
            unfold pricesOf at hpb ⊢
            rw [List.map_cons]
            exact List.mem_cons_of_mem _ hpb
        have hih := ih b'
          { lvl with
            orders := [{ a with quantity := a.quantity - min buy.quantity a.quantity }],
            total_quantity := lvl.total_quantity - min buy.quantity a.quantity }
          rest { a with quantity := a.quantity - min buy.quantity a.quantity }
          (by rw [hb']; exact hasks') rfl
          (by rw [hb']; exact hrest') (by rw [hb']; exact hne')
        constructor
        · intro t' ht'
          rcases List.mem_cons.mp ht' with he | he
          · rw [he, ht]
          · exact hih.1 t' he
        · have hbids2 : sideOrders b'.bids = btail ++ sideOrders brest := by
            rw [hb']
            exact hbids'
          have hbuy := hih.2
          rw [hbids2] at hbuy
          rw [hbb', ht]
          simp only [sideOrders, hbo', List.map_cons, List.length_cons, List.cons_append,
            List.map_append, List.take_succ_cons]
          rw [← List.map_append]
          exact congrArg _ hbuy

/-- C2: for a single aggressor added to a sorted, uncrossed book, the emitted
trade sequence consumes opposite-side head orders in book order: the opposite
side's levels are walked in stored (best-first) order — asks ascending for a
buy aggressor, bids descending for a sell aggressor — and within a level
counterparties are consumed in FIFO order.  Concretely, every trade names the
aggressor on its own side and the counterparty ids are exactly a prefix of
the opposite side's resting orders flattened in book order. -/
theorem C2_trade_emission_order (a : Order) (b : Book)
    (_hsb : SortedBids b.bids) (_hsa : SortedAsks b.asks)
    (hneb : NoEmptySide b.bids) (hnea : NoEmptySide b.asks)
    (hu : Uncrossed b) :
    (a.is_buy = true → (∀ l ∈ b.bids, l.price < a.price) →
      (∀ t ∈ (add_order a b).2, t.buy_order_id = a.order_id) ∧
      (add_order a b).2.map (fun t => t.sell_order_id) =
        ((sideOrders b.asks).map (fun x => x.order_id)).take (add_order a b).2.length) ∧
    (a.is_buy = false → (∀ l ∈ b.asks, a.price < l.price) →
      (∀ t ∈ (add_order a b).2, t.sell_order_id = a.order_id) ∧
      (add_order a b).2.map (fun t => t.buy_order_id) =
        ((sideOrders b.bids).map (fun x => x.order_id)).take (add_order a b).2.length) := by
  constructor
  · intro hb hgt
    simp only [add_order, hb, if_true]
    rw [insertBid_front a b.bids hgt]
    exact matchLoop_buy_aggr _ _ _ _ a rfl rfl
      (fun l hl pa hpa => hu l.price (List.mem_map_of_mem _ hl) pa hpa) hnea
  · intro hb hgt
    simp only [add_order, hb, Bool.false_eq_true, if_false]
    rw [insertAsk_front a b.asks hgt]
    exact matchLoop_sell_aggr _ _ _ _ a rfl rfl
      (fun l hl pb hpb => hu pb hpb l.price (List.mem_map_of_mem _ hl)) hneb


theorem C2_trade_emission_order_witness :
    (SortedBids c2wBook.bids ∧ SortedAsks c2wBook.asks ∧ NoEmptySide c2wBook.bids ∧
     NoEmptySide c2wBook.asks ∧ Uncrossed c2wBook ∧
     (⟨9, true, 102, 100, 0⟩ : Order).is_buy = true ∧
     (∀ l ∈ c2wBook.bids, l.price < (102 : Int))) ∧
    ((∀ t ∈ (add_order ⟨9, true, 102, 100, 0⟩ c2wBook).2, t.buy_order_id = 9) ∧
     (add_order ⟨9, true, 102, 100, 0⟩ c2wBook).2.map (fun t => t.sell_order_id) =
       ((sideOrders c2wBook.asks).map (fun x => x.order_id)).take
         (add_order ⟨9, true, 102, 100, 0⟩ c2wBook).2.length) :=
  ⟨⟨by decide, by decide, by decide, by decide, by decide, by decide, by decide⟩,
   (C2_trade_emission_order ⟨9, true, 102, 100, 0⟩ c2wBook (by decide) (by decide)
     (by decide) (by decide) (by decide)).1 (by decide) (by decide)⟩
